import Mathlib

/-!
# TechPulse Social — streaming decoder and client-side state machine

A shallow embedding of the streaming decoder (frame classifier + frame
parser), the session controller state, the tool status tracker, the
reasoning-phase detector, the tool-display configuration and the locale
toggle of the TechPulse Social frontend, together with proofs of the
behavioural properties claimed in the specification.

Strings from the wire are modelled as `List Char` (the functional content
of a string); the components present in the repository sources
(`ToolEvents`, `useI18n`) are translated directly, while the streaming
decoder — whose implementation file is not part of the source snapshot,
only its unit tests — is modelled from the specification (each such
definition says so in its doc comment).
-/

/-- Characters of a wire string. -/
abbrev Str := List Char

/-- Left brace character (written numerically). -/
def lbrace : Char := Char.ofNat 123

/-- Right brace character (written numerically). -/
def rbrace : Char := Char.ofNat 125

/-- Whitespace recognised by the decoder (space, newline, tab, CR). -/
def wsChar (c : Char) : Bool := c == ' ' || c == '\n' || c == '\t' || c == '\r'

/-- A string is whitespace-only (true for the empty string). -/
def wsOnly (s : Str) : Bool := s.all wsChar

/-- Trim whitespace from both ends. -/
def trimStr (s : Str) : Str :=
  ((s.dropWhile wsChar).reverse.dropWhile wsChar).reverse

/-- JSON values.  Numbers keep their source lexeme: no numeric semantics
is needed by any claim. -/
inductive Json where
  | null : Json
  | bool (b : Bool) : Json
  | num (lexeme : Str) : Json
  | str (s : Str) : Json
  | arr (elems : List Json) : Json
  | obj (members : List (Str × Json)) : Json

/-- Skip leading JSON whitespace. -/
def skipWs (s : Str) : Str := s.dropWhile wsChar

/-- Value of a hexadecimal digit. -/
def hexVal (c : Char) : Option Nat :=
  if c.isDigit then some (c.toNat - 48)
  else if 'a' ≤ c && c ≤ 'f' then some (c.toNat - 87)
  else if 'A' ≤ c && c ≤ 'F' then some (c.toNat - 55)
  else none

/-- Parse the body of a JSON string after the opening quote, handling
escapes; returns the decoded characters and the input after the closing
quote. -/
def parseStrBody : Str → Option (Str × Str)
  | [] => none
  | c :: rest =>
    if c == '"' then some ([], rest)
    else if c == '\\' then
      match rest with
      | [] => none
      | e :: rest2 =>
        if e == 'u' then
          match rest2 with
          | h1 :: h2 :: h3 :: h4 :: rest3 =>
            match hexVal h1, hexVal h2, hexVal h3, hexVal h4 with
            | some a, some b, some c2, some d =>
              (parseStrBody rest3).map
                (fun p => (Char.ofNat (((a * 16 + b) * 16 + c2) * 16 + d) :: p.1, p.2))
            | _, _, _, _ => none
          | _ => none
        else
          match
            (if e == '"' then some '"'
             else if e == '\\' then some '\\'
             else if e == '/' then some '/'
             else if e == 'b' then some (Char.ofNat 8)
             else if e == 'f' then some (Char.ofNat 12)
             else if e == 'n' then some '\n'
             else if e == 'r' then some '\r'
             else if e == 't' then some '\t'
             else none) with
          | some d => (parseStrBody rest2).map (fun p => (d :: p.1, p.2))
          | none => none
    else (parseStrBody rest).map (fun p => (c :: p.1, p.2))

/-- Parse a JSON number, returning its lexeme and the rest of the input. -/
def parseNumber (s : Str) : Option (Str × Str) :=
  let (sign, s1) :=
    match s with
    | c :: t => if c == '-' then ([c], t) else ([], s)
    | [] => ([], s)
  let intPart := s1.takeWhile Char.isDigit
  let s2 := s1.dropWhile Char.isDigit
  if intPart.isEmpty then none
  else
    let (frac, s3) :=
      match s2 with
      | c :: t =>
        if c == '.' then
          let ds := t.takeWhile Char.isDigit
          if ds.isEmpty then ([], s2) else (c :: ds, t.dropWhile Char.isDigit)
        else ([], s2)
      | [] => ([], s2)
    let (expPart, s4) :=
      match s3 with
      | c :: t =>
        if c == 'e' || c == 'E' then
          let (esign, t2) :=
            match t with
            | d :: t2 => if d == '+' || d == '-' then ([d], t2) else ([], t)
            | [] => ([], t)
          let ds := t2.takeWhile Char.isDigit
          if ds.isEmpty then ([], s3)
          else (c :: (esign ++ ds), t2.dropWhile Char.isDigit)
        else ([], s3)
      | [] => ([], s3)
    some (sign ++ intPart ++ frac ++ expPart, s4)

mutual

/-- Fuel-bounded recursive-descent JSON value parser. -/
def parseVal : Nat → Str → Option (Json × Str)
  | 0, _ => none
  | fuel + 1, s =>
    match skipWs s with
    | [] => none
    | c :: rest =>
      if c == lbrace then
        match skipWs rest with
        | d :: rest2 =>
          if d == rbrace then some (.obj [], rest2)
          else
            match parseMembers fuel (skipWs rest) with
            | some (ms, r) => some (.obj ms, r)
            | none => none
        | [] => none
      else if c == '[' then
        match skipWs rest with
        | d :: rest2 =>
          if d == ']' then some (.arr [], rest2)
          else
            match parseElems fuel (skipWs rest) with
            | some (es, r) => some (.arr es, r)
            | none => none
        | [] => none
      else if c == '"' then
        (parseStrBody rest).map (fun p => (.str p.1, p.2))
      else if c == 't' then
        if ("rue").toList.isPrefixOf rest then some (.bool true, rest.drop 3) else none
      else if c == 'f' then
        if ("alse").toList.isPrefixOf rest then some (.bool false, rest.drop 4) else none
      else if c == 'n' then
        if ("ull").toList.isPrefixOf rest then some (.null, rest.drop 3) else none
      else
        (parseNumber (c :: rest)).map (fun p => (.num p.1, p.2))

/-- Parse the members of a JSON object (after the opening brace, at least
one member), up to and including the closing brace. -/
def parseMembers : Nat → Str → Option (List (Str × Json) × Str)
  | 0, _ => none
  | fuel + 1, s =>
    match skipWs s with
    | c :: rest =>
      if c == '"' then
        match parseStrBody rest with
        | some (key, r1) =>
          match skipWs r1 with
          | c2 :: r3 =>
            if c2 == ':' then
              match parseVal fuel r3 with
              | some (v, r4) =>
                match skipWs r4 with
                | c3 :: r6 =>
                  if c3 == ',' then
                    (parseMembers fuel r6).map (fun p => ((key, v) :: p.1, p.2))
                  else if c3 == rbrace then some ([(key, v)], r6)
                  else none
                | [] => none
              | none => none
            else none
          | [] => none
        | none => none
      else none
    | [] => none

/-- Parse the elements of a JSON array (after the opening bracket, at
least one element), up to and including the closing bracket. -/
def parseElems : Nat → Str → Option (List Json × Str)
  | 0, _ => none
  | fuel + 1, s =>
    match parseVal fuel s with
    | some (v, r) =>
      match skipWs r with
      | c :: r2 =>
        if c == ',' then
          (parseElems fuel r2).map (fun p => (v :: p.1, p.2))
        else if c == ']' then some ([v], r2)
        else none
      | [] => none
    | none => none

end

/-- Decode a complete JSON document: a single value followed only by
whitespace.  Total: malformed input yields `none`, never an exception. -/
def parseJson (s : Str) : Option Json :=
  match parseVal (2 * s.length + 2) s with
  | some (j, r) => if (skipWs r).isEmpty then some j else none
  | none => none

/-- Look up a field of a JSON object (last occurrence wins, as in
ECMAScript object literals); `none` on non-objects. -/
def getField (j : Json) (k : Str) : Option Json :=
  match j with
  | .obj m => ((m.filter (fun p => p.1 == k)).getLast?).map (fun p => p.2)
  | _ => none

/-- Extract a JSON string payload. -/
def asStr : Json → Option Str
  | .str s => some s
  | _ => none

/-- Whether a JSON value is an object or array (the shapes the frame
classifier's structural sniff accepts as an envelope). -/
def isContainer : Json → Bool
  | .obj _ => true
  | .arr _ => true
  | _ => false

/-! ## Frame classifier (modelled from the spec, §4.1)

The classifier implementation (`frontend/src/lib/api.ts`) is not part of
the source snapshot — only its unit tests are — so it is modelled from
the specification's contract. -/

/-- The two marker kinds multiplexed onto the text stream. -/
inductive MarkKind where
  | tool : MarkKind
  | reasoning : MarkKind
deriving DecidableEq

/-- Opening delimiter literal of a marker kind. -/
def openTok : MarkKind → Str
  | .tool => ("__TOOL_EVENT__").toList
  | .reasoning => ("__REASONING_REPLACE__").toList

/-- Closing delimiter literal of a marker kind. -/
def closeTok : MarkKind → Str
  | .tool => ("__END_TOOL_EVENT__").toList
  | .reasoning => ("__END_REASONING_REPLACE__").toList

/-- Find the earliest occurrence of either opening delimiter: returns the
text before it, the marker kind, and the input after the delimiter. -/
def findOpen (s : Str) : Option (Str × MarkKind × Str) :=
  if (openTok .tool).isPrefixOf s then
    some ([], .tool, s.drop (openTok .tool).length)
  else if (openTok .reasoning).isPrefixOf s then
    some ([], .reasoning, s.drop (openTok .reasoning).length)
  else
    match s with
    | [] => none
    | c :: cs => (findOpen cs).map (fun p => (c :: p.1, p.2.1, p.2.2))

/-- Find the earliest occurrence of a delimiter `tok`: returns the text
before it and the input after it. -/
def findTok (tok : Str) (s : Str) : Option (Str × Str) :=
  if tok.isPrefixOf s then some ([], s.drop tok.length)
  else
    match s with
    | [] => none
    | c :: cs => (findTok tok cs).map (fun p => (c :: p.1, p.2))

/-- One self-delimited unit extracted from the stream.  A segment frame
(plain text or JSON envelope) keeps the raw characters it was cut from;
an envelope additionally carries the decoded JSON object. -/
inductive LogicalFrame where
  | plainText (raw : Str) : LogicalFrame
  | jsonEnvelope (raw : Str) (j : Json) : LogicalFrame
  | marked (k : MarkKind) (payload : Str) : LogicalFrame

/-- Classify a complete (non-marker) segment: the structural sniff — if
the segment, trimmed, is a single complete JSON object or array it
becomes a `jsonEnvelope`, otherwise `plainText` verbatim. -/
def segFrame (s : Str) : LogicalFrame :=
  match parseJson (trimStr s) with
  | some j => if isContainer j then .jsonEnvelope s j else .plainText s
  | none => .plainText s

/-- The frames of a nonempty pre-marker segment (empty segments produce
no frame). -/
def preF (pre : Str) : List LogicalFrame :=
  if pre.isEmpty then [] else [segFrame pre]

/-- Fuel-indexed classifier loop over one buffered delivery: repeatedly
scan for the earliest opening delimiter, classify the text before it,
emit a `marked` frame when the closing delimiter is present, and defer
(as remainder) from an unmatched opening delimiter onward.  With no
marker open, trailing text is classified immediately — except that a
whitespace-only trailing string is deferred. -/
def classifyLoopF : Nat → Str → List LogicalFrame × Str
  | 0, s => ([], s)
  | fuel + 1, s =>
    match findOpen s with
    | none =>
      if s.isEmpty then ([], [])
      else if wsOnly s then ([], s)
      else ([segFrame s], [])
    | some (pre, k, rest) =>
      match findTok (closeTok k) rest with
      | none => (preF pre, openTok k ++ rest)
      | some (payload, rest2) =>
        let next := classifyLoopF fuel rest2
        (preF pre ++ .marked k payload :: next.1, next.2)

/-- The classifier body on one buffered delivery (enough fuel for the
whole input). -/
def classifyLoop (s : Str) : List LogicalFrame × Str :=
  classifyLoopF (s.length + 1) s

/-- `classify` per the spec contract: the unconsumed remainder of the
previous call is prepended to the new chunk. -/
def classify (bufferTail newChunk : Str) : List LogicalFrame × Str :=
  classifyLoop (bufferTail ++ newChunk)

/-! ## Frame parser (modelled from the spec, §4.2, and the parseChunk
unit tests) -/

/-- A tool event decoded from a marker payload. -/
structure ToolEventData where
  tool : Str
  status : Str
  timestamp : Str
  message : Option Str
deriving DecidableEq

/-- The normalized output of parsing a logical frame. -/
inductive ParsedEvent where
  | textDelta (text : Str) : ParsedEvent
  | reasoningDelta (text : Str) (replace : Bool) : ParsedEvent
  | toolEvent (e : ToolEventData) : ParsedEvent
  | done (threadId : Option Str) : ParsedEvent
  | error (message : Str) : ParsedEvent
  | contentSnapshot (text : Str) (threadId : Option Str) : ParsedEvent
  | ignored : ParsedEvent
deriving DecidableEq

/-- Extract an optional string field. -/
def strField (j : Json) (k : Str) : Option Str :=
  match getField j k with
  | some v => asStr v
  | none => none

/-- The `type` field key. -/
def kType : Str := ("type").toList

/-- The `done` type tag. -/
def kDone : Str := ("done").toList

/-- The `error` field key. -/
def kError : Str := ("error").toList

/-- The `reasoning_update` type tag. -/
def kReasoningUpdate : Str := ("reasoning_update").toList

/-- The `reasoning` field key. -/
def kReasoning : Str := ("reasoning").toList

/-- The `choices` field key. -/
def kChoices : Str := ("choices").toList

/-- The `thread_id` field key. -/
def kThreadId : Str := ("thread_id").toList

/-- The `messages` field key. -/
def kMessages : Str := ("messages").toList

/-- The `role` field key. -/
def kRole : Str := ("role").toList

/-- The `assistant` role tag. -/
def kAssistant : Str := ("assistant").toList

/-- The `content` field key. -/
def kContent : Str := ("content").toList

/-- The `tool_event` type tag. -/
def kToolEventTag : Str := ("tool_event").toList

/-- The `tool` field key. -/
def kTool : Str := ("tool").toList

/-- The `status` field key. -/
def kStatus : Str := ("status").toList

/-- The `timestamp` field key. -/
def kTimestamp : Str := ("timestamp").toList

/-- The `message` field key. -/
def kMessage : Str := ("message").toList

/-- Decode a tool event from JSON: expected shape is an object with
`type == "tool_event"` and string fields `tool`, `status`, `timestamp`
(optional string `message`); anything else is a shape mismatch. -/
def toolEventOfJson (j : Json) : Option ToolEventData :=
  match strField j kType with
  | some ty =>
    if ty = kToolEventTag then
      match strField j kTool, strField j kStatus, strField j kTimestamp with
      | some tool, some status, some ts =>
        some ⟨tool, status, ts, strField j kMessage⟩
      | _, _, _ => none
    else none
  | none => none

/-- Extract the cumulative content text from a `choices` envelope: first
choice, first assistant message with a string content. -/
def choicesText (j : Json) : Option Str :=
  match getField j kChoices with
  | some (.arr (c :: _)) =>
    match getField c kMessages with
    | some (.arr msgs) =>
      (msgs.filterMap (fun m =>
        match strField m kRole, strField m kContent with
        | some role, some content =>
          if role = kAssistant then some content else none
        | _, _ => none)).head?
    | _ => none
  | _ => none

/-- Parse a JSON envelope, first match wins: `type == "done"`, then an
`error` field, then `type == "reasoning_update"`, then a `choices`
content snapshot, else ignored. -/
def parseEnvelope (j : Json) : ParsedEvent :=
  if strField j kType = some kDone then
    .done (strField j kThreadId)
  else if (getField j kError).isSome then
    .error ((strField j kError).getD [])
  else if strField j kType = some kReasoningUpdate then
    .reasoningDelta ((strField j kReasoning).getD []) false
  else
    match choicesText j with
    | some text => .contentSnapshot text (strField j kThreadId)
    | none => .ignored

/-- Parse one logical frame into a typed event.  Total: malformed
payloads map to `ignored`, never an exception. -/
def parseFrame : LogicalFrame → ParsedEvent
  | .plainText s => if wsOnly s then .ignored else .textDelta s
  | .jsonEnvelope _ j => parseEnvelope j
  | .marked .reasoning payload => .reasoningDelta payload true
  | .marked .tool payload =>
    match parseJson payload with
    | none => .ignored
    | some j =>
      match toolEventOfJson j with
      | none => .ignored
      | some e => .toolEvent e

/-- Thread the classifier remainder through a sequence of delivered
chunks, parsing every extracted frame in order. -/
def goChunks (tail : Str) : List Str → List ParsedEvent
  | [] => []
  | c :: cs =>
    let step := classifyLoop (tail ++ c)
    step.1.map parseFrame ++ goChunks step.2 cs

/-- The ordered event sequence produced by classify-then-parse over a
sequence of delivered chunks. -/
def processChunks (chunks : List Str) : List ParsedEvent :=
  goChunks [] chunks

/-- Merge maximal runs of consecutive `textDelta` events into a single
`textDelta` carrying the concatenated text. -/
def mergeTextRuns : List ParsedEvent → List ParsedEvent
  | [] => []
  | .textDelta a :: rest =>
    match mergeTextRuns rest with
    | .textDelta b :: t => .textDelta (a ++ b) :: t
    | r => .textDelta a :: r
  | e :: rest => e :: mergeTextRuns rest

/-- Events up to the equivalence the fragmentation claim allows: no-op
`ignored` events dropped, consecutive `textDelta` events merged. -/
def canonEvents (l : List ParsedEvent) : List ParsedEvent :=
  mergeTextRuns (l.filter (fun e => e ≠ .ignored))

/-- The tool events among a parsed event sequence. -/
def toolEventsOf (l : List ParsedEvent) : List ToolEventData :=
  l.filterMap (fun e =>
    match e with
    | .toolEvent d => some d
    | _ => none)

/-! ## Session controller state (modelled from the spec, §4.5) -/

/-- Insertion-ordered map update with ECMAScript `Map.set` semantics:
replace in place if the key is present (keeping its position), else
append. -/
def mapSet {κ ν : Type} [BEq κ] (m : List (κ × ν)) (k : κ) (v : ν) :
    List (κ × ν) :=
  if m.any (fun p => p.1 == k) then
    m.map (fun p => if p.1 == k then (k, v) else p)
  else m ++ [(k, v)]

/-! ## Reasoning phase detector (modelled from the spec, §4.4) -/

/-- The ordered reasoning phases. -/
inductive RPhase where
  | idle : RPhase
  | chainOfThought : RPhase
  | reactActing : RPhase
  | selfReflection : RPhase
deriving DecidableEq

/-- Rank of a phase in the fixed total order
None < ChainOfThought < ReactActing < SelfReflection. -/
def RPhase.rank : RPhase → Nat
  | .idle => 0
  | .chainOfThought => 1
  | .reactActing => 2
  | .selfReflection => 3

/-- The larger of two phases under the fixed total order. -/
def maxPhase (a b : RPhase) : RPhase := if a.rank ≤ b.rank then b else a

/-- Whether `tok` occurs as a contiguous substring of `s`. -/
def hasSub (tok : Str) : Str → Bool
  | [] => tok.isEmpty
  | c :: cs => tok.isPrefixOf (c :: cs) || hasSub tok cs

/-- Modelled from the spec: heuristic keyword classification of the
accumulated reasoning transcript — evaluation/scoring/revision vocabulary
signals SelfReflection, tool-invocation vocabulary signals ReactActing,
planning/audience/strategy vocabulary signals ChainOfThought. -/
def detectPhase (t : Str) : RPhase :=
  if hasSub (("evaluation").toList) t || hasSub (("scoring").toList) t ||
     hasSub (("revision").toList) t then .selfReflection
  else if hasSub (("search").toList) t || hasSub (("generate").toList) t ||
     hasSub (("invoke").toList) t then .reactActing
  else if hasSub (("planning").toList) t || hasSub (("audience").toList) t ||
     hasSub (("strategy").toList) t then .chainOfThought
  else .idle

/-- Modelled from the spec: one detector update sets the phase to the
maximum of the current phase and the phase detected in the
transcript-so-far. -/
def updatePhase (cur : RPhase) (t : Str) : RPhase := maxPhase cur (detectPhase t)

/-- The sequence of phases reported for a sequence of cumulative
transcripts, starting from phase `cur`. -/
def phaseSeq (cur : RPhase) : List Str → List RPhase
  | [] => []
  | t :: ts =>
    let n := updatePhase cur t
    n :: phaseSeq n ts

/-- Modelled from the spec (§3, §4.5): the per-request mutable session
state owned by the Session Controller. -/
structure SessionState where
  text : Str
  reasoning : Str
  tools : List (Str × ToolEventData)
  phase : RPhase
  done : Bool
  error : Option Str
  threadId : Option Str

/-- The fresh session state created when a request is submitted. -/
def initSession : SessionState :=
  ⟨[], [], [], .idle, false, none, none⟩

/-- Modelled from the spec (§4.5): how one parsed event mutates the
session state — `textDelta` appends, `contentSnapshot` replaces the text
wholesale and records the thread id, `reasoningDelta` appends or replaces
per its flag and re-runs the phase detector, `toolEvent` delegates to the
tracker map, `done`/`error` mark the session terminal, `ignored` is a
no-op. -/
def applyEvent (st : SessionState) : ParsedEvent → SessionState
  | .textDelta s => { st with text := st.text ++ s }
  | .contentSnapshot s tid =>
    { st with
        text := s
        threadId := match tid with | some t => some t | none => st.threadId }
  | .reasoningDelta s rep =>
    let newReasoning := if rep then s else st.reasoning ++ s
    { st with
        reasoning := newReasoning
        phase := updatePhase st.phase newReasoning }
  | .toolEvent e => { st with tools := mapSet st.tools e.tool e }
  | .done tid =>
    { st with
        done := true
        threadId := match tid with | some t => some t | none => st.threadId }
  | .error m => { st with error := some m }
  | .ignored => st

/-- Run a whole delivered-chunk sequence through the decoder and fold the
resulting events into the session state. -/
def runSession (chunks : List Str) : SessionState :=
  (processChunks chunks).foldl applyEvent initSession

/-! ## Tool status tracker — from `ToolEvents` in
`src/frontend/src/components/SuggestedQuestions.tsx` -/

/-- A tool event record as consumed by the `ToolEvents` component. -/
structure ToolRecord where
  tool : String
  status : String
  timestamp : String
  message : Option String
deriving DecidableEq

/-- `latestByTool` (lines 117–121): deduplicate, keeping the latest event
per tool name, in a `Map` whose values are listed in insertion order. -/
def latestByTool (events : List ToolRecord) : List ToolRecord :=
  (events.foldl (fun m e => mapSet m e.tool e) []).map (fun p => p.2)

/-- The comparator passed to `Array.prototype.sort` (lines 132–136):
`started` records sort before all others, everything else ties. -/
def cmpRecords (a b : ToolRecord) : Int :=
  if a.status == ("started") && !(b.status == ("started")) then -1
  else if !(a.status == ("started")) && b.status == ("started") then 1
  else 0

/-- Stable insertion of one record: placed before the first element it
compares strictly below or ties with, after elements it compares above —
the insertion step of a stable sort by `cmpRecords`. -/
def insertCmp (a : ToolRecord) : List ToolRecord → List ToolRecord
  | [] => [a]
  | b :: l => if cmpRecords a b ≤ 0 then a :: b :: l else b :: insertCmp a l

/-- `sorted` (lines 131–137): `[...latestByTool].sort(cmp)`.  ECMAScript
`Array.prototype.sort` is a stable sort, and for this key-determined
comparator every stable sort produces the same output, so it is embedded
as a stable insertion sort. -/
def sortedRecords (l : List ToolRecord) : List ToolRecord :=
  l.foldr insertCmp []

/-! ## Tool display configuration — from `ToolEvents` (lines 56–106,
160–161) -/

/-- One tool's display configuration (the icon component is identified by
its name). -/
structure ToolCfg where
  icon : String
  label : String
  category : String
  gradient : String
  completedBg : String
deriving DecidableEq

/-- The own data properties of the `TOOL_CONFIG` object literal (lines
56–98): display config per known tool name. -/
def toolConfigOwn (name : String) : Option ToolCfg :=
  if name = ("web_search") then
    some ⟨("Globe"), ("Web Search"), ("search"), ("from-sky-500 to-blue-600"),
      ("bg-sky-100 dark:bg-sky-900/40 text-sky-700 dark:text-sky-300 border-sky-300 dark:border-sky-700")⟩
  else if name = ("file_search") then
    some ⟨("FileSearch"), ("File Search"), ("search"), ("from-violet-500 to-purple-600"),
      ("bg-violet-100 dark:bg-violet-900/40 text-violet-700 dark:text-violet-300 border-violet-300 dark:border-violet-700")⟩
  else if name = ("generate_content") then
    some ⟨("Pencil"), ("Generate Content"), ("content"), ("from-emerald-500 to-teal-600"),
      ("bg-emerald-100 dark:bg-emerald-900/40 text-emerald-700 dark:text-emerald-300 border-emerald-300 dark:border-emerald-700")⟩
  else if name = ("review_content") then
    some ⟨("ClipboardCheck"), ("Review Content"), ("review"), ("from-amber-500 to-orange-600"),
      ("bg-amber-100 dark:bg-amber-900/40 text-amber-700 dark:text-amber-300 border-amber-300 dark:border-amber-700")⟩
  else if name = ("generate_image") then
    some ⟨("ImageIcon"), ("Generate Image"), ("image"), ("from-pink-500 to-rose-600"),
      ("bg-pink-100 dark:bg-pink-900/40 text-pink-700 dark:text-pink-300 border-pink-300 dark:border-pink-700")⟩
  else none

/-- `DEFAULT_CONFIG` (lines 100–106): the fallback entry for unknown tool
names. -/
def DEFAULT_CONFIG : ToolCfg :=
  ⟨("Wrench"), ("Tool"), ("other"), ("from-gray-500 to-gray-600"),
    ("bg-gray-100 dark:bg-gray-800 text-gray-700 dark:text-gray-300 border-gray-300 dark:border-gray-700")⟩

/-- The five configured tool names. -/
def KNOWN_TOOLS : List String :=
  [("web_search"), ("file_search"), ("generate_content"), ("review_content"),
   ("generate_image")]

/-- The property names every plain object literal inherits from
`Object.prototype` in a browser environment: the seven standard methods
plus the legacy accessor properties.  An indexed read at one of these
names finds the inherited member, not `undefined`. -/
def OBJECT_PROTO_MEMBERS : List String :=
  [("constructor"), ("hasOwnProperty"), ("isPrototypeOf"),
   ("propertyIsEnumerable"), ("toLocaleString"), ("toString"), ("valueOf"),
   ("__proto__"), ("__defineGetter__"), ("__defineSetter__"),
   ("__lookupGetter__"), ("__lookupSetter__")]

/-- The value a JavaScript property read on the config object can produce:
an own config entry, an inherited `Object.prototype` member (a function or
object — in particular not nullish), or `undefined`. -/
inductive JsProp where
  | config (cfg : ToolCfg) : JsProp
  | protoMember (name : String) : JsProp
  | undefined : JsProp
deriving DecidableEq

/-- `TOOL_CONFIG[name]` (lines 161, 223): indexed access on the plain
object literal.  It finds an own property first, otherwise walks the
prototype chain — so at an `Object.prototype` member name it yields the
inherited member — and only otherwise evaluates to `undefined`. -/
def TOOL_CONFIG (name : String) : JsProp :=
  match toolConfigOwn name with
  | some cfg => JsProp.config cfg
  | none =>
    if name ∈ OBJECT_PROTO_MEMBERS then JsProp.protoMember name
    else JsProp.undefined

/-- `TOOL_CONFIG[ev.tool] ?? DEFAULT_CONFIG` (lines 161, 223): `??`
substitutes its right operand only when the left is nullish, which here
means only when the indexed access evaluated to `undefined`; an inherited
prototype member is not nullish and passes through. -/
def toolCfgFor (name : String) : JsProp :=
  match TOOL_CONFIG name with
  | JsProp.undefined => JsProp.config DEFAULT_CONFIG
  | p => p

/-- Rendering one pill (lines 163–196): the component reads `cfg.Icon`
and renders it as a JSX element.  When `cfg` is a config entry this
succeeds and the pill shows that entry; when `cfg` is an inherited
`Object.prototype` member (a function), `cfg.Icon` is `undefined` and
React throws while rendering the element, so no pill is produced. -/
def renderPill (p : JsProp) : Option ToolCfg :=
  match p with
  | JsProp.config cfg => some cfg
  | _ => none

/-- The pill bar rendered by `ToolEvents` (lines 159–196): one lookup
result/record pair per deduplicated, sorted record. -/
def toolPills (events : List ToolRecord) : List (JsProp × ToolRecord) :=
  (sortedRecords (latestByTool events)).map (fun ev => (toolCfgFor ev.tool, ev))

/-! ## Locale toggle — from `useI18n` (`src/unnamed/part_002`, lines
13–18).  `ALL_LOCALES` lives in `lib/i18n.ts`, which is not part of the
source snapshot, so the toggle is embedded generically over the locale
list. -/

/-- Index of the first occurrence of `a` in `l` (any value when absent). -/
def firstIdx (l : List String) (a : String) : Nat :=
  match l with
  | [] => 0
  | b :: t => if b = a then 0 else firstIdx t a + 1

/-- ECMAScript `Array.prototype.indexOf`: index of the first occurrence,
`-1` when absent. -/
def jsIndexOf (l : List String) (a : String) : Int :=
  if a ∈ l then (firstIdx l a : Int) else -1

/-- `toggleLocale`: `ALL_LOCALES[(ALL_LOCALES.indexOf(prev) + 1) %
ALL_LOCALES.length]`. -/
def toggleLocale (locales : List String) (prev : String) : String :=
  (locales.getD ((jsIndexOf locales prev + 1) % (locales.length : Int)).toNat) ("")

/-! ## Rendering and the classification relation (for the fragmentation
analysis of the classifier) -/

/-- The exact characters a logical frame was cut from. -/
def renderFrame : LogicalFrame → Str
  | .plainText raw => raw
  | .jsonEnvelope raw _ => raw
  | .marked k payload => openTok k ++ payload ++ closeTok k

/-- The characters of a frame sequence. -/
def renderAll (fs : List LogicalFrame) : Str := (fs.map renderFrame).flatten

/-- `tok` occurs in `s` at position `p`. -/
def occAt (tok s : Str) (p : Nat) : Prop := tok <+: s.drop p

/-- Neither opening delimiter occurs in `s` before position `n`. -/
def NoOpenBefore (s : Str) (n : Nat) : Prop :=
  ∀ p, p < n → ¬ occAt (openTok .tool) s p ∧ ¬ occAt (openTok .reasoning) s p

/-- Neither opening delimiter occurs anywhere in `s`. -/
def NoOpenAll (s : Str) : Prop :=
  ∀ p, ¬ occAt (openTok .tool) s p ∧ ¬ occAt (openTok .reasoning) s p

/-- `tok` does not occur in `s` before position `n`. -/
def NoTokBefore (tok s : Str) (n : Nat) : Prop := ∀ p, p < n → ¬ occAt tok s p

/-- `tok` does not occur anywhere in `s`. -/
def NoTokAll (tok s : Str) : Prop := ∀ p, ¬ occAt tok s p

/-- Relational presentation of one classifier pass: `CL s fs r` states
that scanning `s` emits the frames `fs` in order and leaves remainder
`r`, with the positional side conditions that make the scan
deterministic. -/
inductive CL : Str → List LogicalFrame → Str → Prop where
  | nil : CL [] [] []
  | deferWs (s : Str) (hne : s ≠ []) (hws : wsOnly s = true)
      (hno : NoOpenAll s) : CL s [] s
  | lastSeg (s : Str) (hne : s ≠ []) (hws : wsOnly s = false)
      (hno : NoOpenAll s) : CL s [segFrame s] []
  | noClose (pre : Str) (k : MarkKind) (rest : Str)
      (hno : NoOpenBefore (pre ++ openTok k ++ rest) pre.length)
      (hnc : NoTokAll (closeTok k) rest) :
      CL (pre ++ openTok k ++ rest) (preF pre) (openTok k ++ rest)
  | step (pre : Str) (k : MarkKind) (payload rest : Str)
      (fs : List LogicalFrame) (r : Str)
      (hno : NoOpenBefore (pre ++ openTok k ++ payload ++ closeTok k ++ rest)
        pre.length)
      (hnc : NoTokBefore (closeTok k) (payload ++ closeTok k ++ rest)
        payload.length)
      (htl : CL rest fs r) :
      CL (pre ++ openTok k ++ payload ++ closeTok k ++ rest)
        (preF pre ++ .marked k payload :: fs) r

/-- Conclusion of the per-chunk classification lemma: a chunk holding the
rendered frames `g` classifies either to exactly `g` with no remainder,
or — when `g` ends with a whitespace-only text frame — to `g` minus that
frame, deferring its characters. -/
def ChunkConcl (g : List LogicalFrame) (s : Str) (fs2 : List LogicalFrame)
    (r : Str) : Prop :=
  (classifyLoop (renderAll g) = (g, []) ∧
    CL (s.drop (renderAll g).length) fs2 r) ∨
  (∃ g0 w, g = g0 ++ [.plainText w] ∧ w ≠ [] ∧ wsOnly w = true ∧
    classifyLoop (renderAll g) = (g0, w) ∧
    CL (w ++ s.drop (renderAll g).length) (.plainText w :: fs2) r)

/-! ## Concrete wire examples used by witnesses and counterexamples -/

/-- A terminal done envelope, as in the parseChunk unit tests. -/
def exDone : Str := ("\x7b\"type\":\"done\",\"thread_id\":\"abc\"\x7d").toList

/-- An error envelope, as in the parseChunk unit tests. -/
def exError : Str := ("\x7b\"error\":\"Rate limit exceeded\"\x7d").toList

/-- A cumulative choices envelope carrying content "A". -/
def exChoicesA : Str :=
  ("\x7b\"choices\":[\x7b\"messages\":[\x7b\"role\":\"assistant\",\"content\":\"A\"\x7d]\x7d]\x7d").toList

/-- A cumulative choices envelope carrying content "AB". -/
def exChoicesAB : Str :=
  ("\x7b\"choices\":[\x7b\"messages\":[\x7b\"role\":\"assistant\",\"content\":\"AB\"\x7d]\x7d]\x7d").toList

/-- The malformed tool-event frame from the unit tests. -/
def exBadTool : Str := ("__TOOL_EVENT__\x7bbad__END_TOOL_EVENT__").toList

/-- A done envelope without a thread id. -/
def exDoneShort : Str := ("\x7b\"type\":\"done\"\x7d").toList

/-! ## Claim theorems -/

/-- C8: parsing a `PlainText(s)` frame yields `TextDelta(s)` whenever `s`
is not whitespace-only (emptiness included), and `Ignored` when it is. -/
theorem plainText_parse_spec (s : Str) :
    (wsOnly s = false → parseFrame (.plainText s) = .textDelta s) ∧
    (wsOnly s = true → parseFrame (.plainText s) = .ignored) := by
  constructor <;> intro h <;> simp [parseFrame, h]

/-- C8 witness: at the concrete inputs "Hello world" (neither empty nor
whitespace-only) and "   ". -/
theorem plainText_parse_spec_witness :
    wsOnly (("Hello world").toList) = false ∧
    parseFrame (.plainText (("Hello world").toList)) =
      .textDelta (("Hello world").toList) ∧
    wsOnly (("   ").toList) = true ∧
    parseFrame (.plainText (("   ").toList)) = .ignored :=
  ⟨by decide, (plainText_parse_spec _).1 (by decide), by decide,
    (plainText_parse_spec _).2 (by decide)⟩

/-- C6: a tool-event marker payload that fails to decode as JSON, or
decodes to JSON without the expected tool-event shape, parses to
`Ignored` (the parser is a total function, so no exception can reach the
caller); in particular the malformed frame from the unit tests yields
zero tool events. -/
theorem malformed_toolEvent_ignored :
    (∀ payload : Str, parseJson payload = none →
        parseFrame (.marked .tool payload) = .ignored) ∧
    (∀ (payload : Str) (j : Json), parseJson payload = some j →
        toolEventOfJson j = none →
        parseFrame (.marked .tool payload) = .ignored) ∧
    processChunks [exBadTool] = [.ignored] ∧
    toolEventsOf (processChunks [exBadTool]) = [] := by
  refine ⟨fun p h => by simp [parseFrame, h], fun p j h1 h2 => by simp [parseFrame, h1, h2], ?_, ?_⟩ <;> rfl

/-- C6 witness: the general malformed-payload statement applied at the
concrete payload `{bad`. -/
theorem malformed_toolEvent_ignored_witness :
    parseJson (("\x7bbad").toList) = none ∧
    parseFrame (.marked .tool (("\x7bbad").toList)) = .ignored :=
  ⟨rfl, malformed_toolEvent_ignored.1 (("\x7bbad").toList) rfl⟩

/-- C7: envelope parsing is first-match-wins — `type == "done"` yields
`Done(thread_id)` unconditionally, otherwise a present `error` field
yields `Error` (even with no `type` field); concretely, the done envelope
yields a terminal `Done` with thread id "abc" and the error envelope a
terminal error with its exact message while the session's done flag stays
false. -/
theorem envelope_precedence :
    (∀ j : Json, strField j kType = some kDone →
        parseEnvelope j = .done (strField j kThreadId)) ∧
    (∀ (j : Json) (m : Str),
        strField j kType ≠ some kDone →
        getField j kError = some (.str m) →
        parseEnvelope j = .error m) ∧
    processChunks [exDone] = [.done (some (("abc").toList))] ∧
    processChunks [exError] = [.error (("Rate limit exceeded").toList)] ∧
    (runSession [exError]).done = false ∧
    (runSession [exError]).error = some (("Rate limit exceeded").toList) ∧
    (runSession [exDone]).done = true ∧
    (runSession [exDone]).threadId = some (("abc").toList) := by
  refine ⟨fun j h => by rw [parseEnvelope, if_pos h],
    fun j m h1 h2 => ?_, ?_, ?_, ?_, ?_, ?_, ?_⟩
  · rw [parseEnvelope, if_neg h1, if_pos (by rw [h2]; rfl)]
    simp only [strField, h2, asStr, Option.getD]
  all_goals rfl

/-- C7 witness: the two general branches applied at the concrete decoded
envelopes `{"type":"done","thread_id":"abc"}` and
`{"error":"Rate limit exceeded"}`. -/
theorem envelope_precedence_witness :
    (∃ j : Json, parseJson exDone = some j ∧
      strField j kType = some kDone ∧
      parseEnvelope j = .done (some (("abc").toList))) ∧
    (∃ j : Json, parseJson exError = some j ∧
      strField j kType ≠ some kDone ∧
      parseEnvelope j = .error (("Rate limit exceeded").toList)) := by
  constructor
  · refine ⟨.obj [(kType, .str kDone), (kThreadId, .str (("abc").toList))],
      rfl, rfl, ?_⟩
    exact envelope_precedence.1 _ rfl
  · refine ⟨.obj [(kError, .str (("Rate limit exceeded").toList))],
      rfl, by decide, ?_⟩
    exact envelope_precedence.2.1 _ _ (by decide) rfl

/-- C2: a `choices` content envelope is cumulative — applying a
`ContentSnapshot` replaces the accumulated text wholesale for every
session state, and feeding the two concrete choices envelopes carrying
"A" then "AB" through the whole pipeline leaves the accumulated text
"AB", not "AAB". -/
theorem contentSnapshot_replaces :
    (∀ (st : SessionState) (s : Str) (tid : Option Str),
        (applyEvent st (.contentSnapshot s tid)).text = s) ∧
    (runSession [exChoicesA, exChoicesAB]).text = ("AB").toList := by
  exact ⟨fun st s tid => rfl, rfl⟩

/-- C5: the reasoning phase is monotonic — for every starting phase and
every sequence of cumulative reasoning transcripts, the sequence of
phases reported by the detector is non-decreasing under the total order
None < ChainOfThought < ReactActing < SelfReflection. -/
theorem reasoningPhase_monotone (cur : RPhase) (ts : List Str) :
    List.Chain (fun a b => a.rank ≤ b.rank) cur (phaseSeq cur ts) := by
  induction ts generalizing cur with
  | nil => exact .nil
  | cons t ts ih =>
    refine List.Chain.cons ?_ (ih _)
    show cur.rank ≤ (updatePhase cur t).rank
    unfold updatePhase maxPhase
    split
    · assumption
    · exact le_refl _

/-- C9 counterexample: the claim as stated — every tool name outside the
five configured ones falls back to the default entry — is false at the
concrete name "toString".  "toString" is none of the five, yet the
indexed access finds the inherited method on the prototype
chain, which is not nullish, so `??` does not substitute the default
entry and rendering the pill fails instead of showing the Wrench
fallback. -/
theorem toolConfig_fallback_counterexample :
    (("toString") ∉ KNOWN_TOOLS) ∧
    toolCfgFor ("toString") ≠ JsProp.config DEFAULT_CONFIG ∧
    toolCfgFor ("toString") = JsProp.protoMember ("toString") ∧
    renderPill (toolCfgFor ("toString")) = none := by
  decide

/-- C9 (corrected): the `??` fallback to the fixed default entry (label
"Tool", category "other", Wrench icon) fires exactly for tool names that
are neither one of the five configured names nor inherited
`Object.prototype` member names; at a prototype member name the inherited
non-nullish member passes through `??` and the pill fails to render.
Each deduplicated, sorted record still yields exactly one lookup/record
pair. -/
theorem toolConfig_fallback :
    (∀ name : String, name ∉ KNOWN_TOOLS → name ∉ OBJECT_PROTO_MEMBERS →
        toolCfgFor name = JsProp.config DEFAULT_CONFIG) ∧
    DEFAULT_CONFIG.label = ("Tool") ∧
    DEFAULT_CONFIG.category = ("other") ∧
    DEFAULT_CONFIG.icon = ("Wrench") ∧
    (∀ name : String, name ∈ OBJECT_PROTO_MEMBERS →
        toolCfgFor name = JsProp.protoMember name ∧
        renderPill (toolCfgFor name) = none) ∧
    (∀ events : List ToolRecord,
        (toolPills events).length = (sortedRecords (latestByTool events)).length) := by
  refine ⟨?_, rfl, rfl, rfl, ?_, fun events => by simp [toolPills]⟩
  · intro name h hp
    simp only [KNOWN_TOOLS, List.mem_cons, List.not_mem_nil, or_false, not_or] at h
    obtain ⟨h1, h2, h3, h4, h5⟩ := h
    simp [toolCfgFor, TOOL_CONFIG, toolConfigOwn, h1, h2, h3, h4, h5, hp]
  · intro name hp
    have hown : toolConfigOwn name = none := by
      simp only [OBJECT_PROTO_MEMBERS, List.mem_cons, List.not_mem_nil,
        or_false] at hp
      rcases hp with rfl | rfl | rfl | rfl | rfl | rfl | rfl | rfl | rfl |
        rfl | rfl | rfl <;> decide
    simp [toolCfgFor, TOOL_CONFIG, hown, hp, renderPill]

/-- C9 witness: the corrected fallback applied at the unknown,
non-prototype name "my_tool", and the pass-through branch applied at the
prototype member name "valueOf". -/
theorem toolConfig_fallback_witness :
    ((("my_tool") ∉ KNOWN_TOOLS) ∧ (("my_tool") ∉ OBJECT_PROTO_MEMBERS) ∧
      toolCfgFor ("my_tool") = JsProp.config DEFAULT_CONFIG) ∧
    ((("valueOf") ∈ OBJECT_PROTO_MEMBERS) ∧
      (toolCfgFor ("valueOf") = JsProp.protoMember ("valueOf") ∧
        renderPill (toolCfgFor ("valueOf")) = none)) :=
  ⟨⟨by decide, by decide,
      toolConfig_fallback.1 (("my_tool")) (by decide) (by decide)⟩,
   ⟨by decide, toolConfig_fallback.2.2.2.2.1 (("valueOf")) (by decide)⟩⟩

/-- Key index lemma for the locale toggle: with no duplicate locales, the
first-occurrence index of the `i`-th member is `i`. -/
theorem firstIdx_getD (l : List String) (hnd : l.Nodup) :
    ∀ (i : Nat), i < l.length → firstIdx l ((l.getD i) ("")) = i := by
  induction l with
  | nil => intro i hi; simp at hi
  | cons b t ih =>
    intro i hi
    match i with
    | 0 => simp [firstIdx]
    | i + 1 =>
      have hlt : i < t.length := by simpa using hi
      have hmem : (t.getD i) ("") ∈ t := by
        rw [List.getD_eq_getElem _ _ hlt]; exact List.getElem_mem _
      have hb : b ∉ t := (List.nodup_cons.mp hnd).1
      have hne : ¬ b = (t.getD i) ("") := fun he => hb (he ▸ hmem)
      simp only [List.getD_cons_succ, firstIdx, if_neg hne]
      rw [ih (List.nodup_cons.mp hnd).2 i hlt]

/-- C10: `toggleLocale` cycles through the locale list — from the member
at index `i` one application reaches the member at index
`(i+1) % length` (wrapping from last to first), and `length`
applications return to the starting member. -/
theorem toggleLocale_cycles (locales : List String) (hnd : locales.Nodup)
    (i : Nat) (hi : i < locales.length) :
    toggleLocale locales ((locales.getD i) ("")) =
      (locales.getD ((i + 1) % locales.length)) ("") ∧
    (toggleLocale locales)^[locales.length] ((locales.getD i) ("")) =
      (locales.getD i) ("") := by
  have hlen : 0 < locales.length := Nat.lt_of_le_of_lt (Nat.zero_le _) hi
  have hstep : ∀ j, j < locales.length →
      toggleLocale locales ((locales.getD j) ("")) =
        (locales.getD ((j + 1) % locales.length)) ("") := by
    intro j hj
    have hmem : (locales.getD j) ("") ∈ locales := by
      rw [List.getD_eq_getElem _ _ hj]; exact List.getElem_mem _
    unfold toggleLocale jsIndexOf
    rw [if_pos hmem, firstIdx_getD locales hnd j hj]
    have hcast : (((j : Int) + 1) % (locales.length : Int)).toNat =
        (j + 1) % locales.length := by
      have h1 : ((j : Int) + 1) = ((j + 1 : Nat) : Int) := by push_cast; ring
      rw [h1, ← Int.natCast_mod, Int.toNat_natCast]
    rw [hcast]
  have hiter : ∀ (k j : Nat), j < locales.length →
      (toggleLocale locales)^[k] ((locales.getD j) ("")) =
        (locales.getD ((j + k) % locales.length)) ("") := by
    intro k
    induction k with
    | zero => intro j hj; simp [Nat.mod_eq_of_lt hj]
    | succ k ih =>
      intro j hj
      rw [Function.iterate_succ_apply, hstep j hj,
        ih ((j + 1) % locales.length) (Nat.mod_lt _ hlen)]
      congr 1
      rw [Nat.mod_add_mod]
      congr 1
      omega
  refine ⟨hstep i hi, ?_⟩
  rw [hiter locales.length i hi, Nat.add_mod_right, Nat.mod_eq_of_lt hi]

/-- C10 witness: the cycle at the two-locale list `["en", "ja"]` used by
the app (EN/JA support), starting from "en". -/
theorem toggleLocale_cycles_witness :
    ([("en"), ("ja")] : List String).Nodup ∧
    toggleLocale [("en"), ("ja")] (("en")) = ("ja") ∧
    (toggleLocale [("en"), ("ja")])^[2] (("en")) = ("en") := by
  refine ⟨by decide, ?_, ?_⟩
  · have h := (toggleLocale_cycles [("en"), ("ja")] (by decide) 0 (by decide)).1
    simpa using h
  · have h := (toggleLocale_cycles [("en"), ("ja")] (by decide) 0 (by decide)).2
    simpa using h

/-- A `started` record compares at or below every record. -/
theorem cmpRecords_started_le (a b : ToolRecord)
    (h : a.status = ("started")) : cmpRecords a b ≤ 0 := by
  by_cases hb : b.status = ("started") <;> simp [cmpRecords, h, hb]

/-- A non-`started` record compares strictly above every `started`
record and ties with every non-`started` record. -/
theorem cmpRecords_not_started (a b : ToolRecord)
    (ha : ¬ a.status = ("started")) :
    (b.status = ("started") → cmpRecords a b = 1) ∧
    (¬ b.status = ("started") → cmpRecords a b = 0) := by
  constructor <;> intro hb <;> simp [cmpRecords, ha, hb]

/-- C4: the snapshot ordering is the stable partition — for every record
list, the sorted output is exactly the `started` records (in input
order) followed by all other records (in input order); being a pure
recomputation over the current records, a tool whose latest status
leaves `started` moves from the front group to the back group. -/
theorem snapshot_partition (l : List ToolRecord) :
    sortedRecords l =
      l.filter (fun r => r.status == ("started")) ++
      l.filter (fun r => !(r.status == ("started"))) := by
  induction l with
  | nil => rfl
  | cons x l ih =>
    have hstep : sortedRecords (x :: l) = insertCmp x (sortedRecords l) := rfl
    by_cases hx : x.status = ("started")
    · have hfront : ∀ L : List ToolRecord, insertCmp x L = x :: L := by
        intro L
        cases L with
        | nil => rfl
        | cons b t =>
          unfold insertCmp
          rw [if_pos (cmpRecords_started_le x b hx)]
      rw [hstep, ih, hfront]
      simp [hx]
    · have hthrough : ∀ S N : List ToolRecord,
          (∀ b ∈ S, b.status = ("started")) →
          (∀ b ∈ N, ¬ b.status = ("started")) →
          insertCmp x (S ++ N) = S ++ x :: N := by
        intro S
        induction S with
        | nil =>
          intro N _ hN
          simp only [List.nil_append]
          cases N with
          | nil => rfl
          | cons b t =>
            unfold insertCmp
            rw [if_pos]
            rw [(cmpRecords_not_started x b hx).2 (hN b (List.mem_cons_self b t))]
        | cons s S ihS =>
          intro N hS hN
          have hcmp : cmpRecords x s = 1 :=
            (cmpRecords_not_started x s hx).1 (hS s (List.mem_cons_self s S))
          show insertCmp x (s :: (S ++ N)) = s :: (S ++ x :: N)
          unfold insertCmp
          rw [if_neg (by rw [hcmp]; decide), ihS N (fun b hb => hS b (List.mem_cons_of_mem s hb)) hN]
      rw [hstep, ih, hthrough _ _ ?_ ?_]
      · simp [hx]
      · intro b hb
        have := List.of_mem_filter hb
        simpa using this
      · intro b hb
        have := List.of_mem_filter hb
        simpa using this

/-- If no entry of `m` has key `k`, the key-filter at `k` is empty. -/
theorem filter_key_nil {ν : Type} (m : List (String × ν)) (k : String)
    (h : m.any (fun p => p.1 == k) = false) :
    m.filter (fun p => p.1 == k) = [] := by
  rw [List.filter_eq_nil_iff]
  intro p hp
  have := List.any_eq_false.mp h p hp
  simpa using this

/-- Filtering by key commutes with the in-place replacement map of
`mapSet` (the replacement keeps the key it replaces). -/
theorem filter_replace_key {ν : Type} (m : List (String × ν)) (k t : String) (v : ν) :
    (m.map (fun p => if p.1 == k then (k, v) else p)).filter (fun p => p.1 == t) =
      (m.filter (fun p => p.1 == t)).map (fun p => if p.1 == k then (k, v) else p) := by
  induction m with
  | nil => rfl
  | cons q m ih =>
    simp only [List.map_cons, List.filter_cons]
    by_cases hqk : (q.1 == k) = true
    · have hq1 : q.1 = k := by simpa using hqk
      rw [if_pos hqk]
      by_cases hkt : (k == t) = true
      · have hqt : (q.1 == t) = true := by rw [hq1]; exact hkt
        simp only [hkt, hqt, if_pos, List.map_cons]
        rw [if_pos hqk, ih]
      · have hqt : (q.1 == t) = false := by
          rw [hq1]
          cases h2 : (k == t)
          · rfl
          · exact absurd h2 hkt
        simp only [hkt, hqt, Bool.false_eq_true, if_neg, not_false_eq_true]
        exact ih
    · rw [if_neg hqk]
      by_cases hqt : (q.1 == t) = true
      · simp only [hqt, if_pos, List.map_cons]
        rw [if_neg hqk, ih]
      · simp only [hqt, Bool.false_eq_true, if_neg, not_false_eq_true]
        exact ih

/-- How one `mapSet` step changes the key-filter: the updated key now
maps to exactly the new entry, every other key is untouched. -/
theorem mapSet_filter {ν : Type} (m : List (String × ν)) (k : String) (v : ν)
    (t : String) (hm : (m.filter (fun p => p.1 == k)).length ≤ 1) :
    (mapSet m k v).filter (fun p => p.1 == t) =
      if k = t then [(k, v)] else m.filter (fun p => p.1 == t) := by
  unfold mapSet
  by_cases hany : m.any (fun p => p.1 == k) = true
  · rw [if_pos hany, filter_replace_key]
    by_cases hkt : k = t
    · subst hkt
      obtain ⟨p0, hp0⟩ : ∃ p0, m.filter (fun p => p.1 == k) = [p0] := by
        obtain ⟨p, hpmem, hpk⟩ := List.any_eq_true.mp hany
        have hmem : p ∈ m.filter (fun p => p.1 == k) :=
          List.mem_filter.mpr ⟨hpmem, hpk⟩
        have hlen1 : (m.filter (fun p => p.1 == k)).length = 1 := by
          have : 0 < (m.filter (fun p => p.1 == k)).length :=
            List.length_pos.mpr (List.ne_nil_of_mem hmem)
          omega
        exact List.length_eq_one.mp hlen1
      rw [if_pos rfl, hp0]
      have hp0k : (p0.1 == k) = true := by
        have : p0 ∈ m.filter (fun p => p.1 == k) := by
          rw [hp0]; exact List.mem_cons_self _ _
        exact (List.mem_filter.mp this).2
      simp only [List.map_cons, List.map_nil]
      rw [if_pos hp0k]
    · rw [if_neg hkt]
      have hid : (m.filter (fun p => p.1 == t)).map
            (fun p => if p.1 == k then (k, v) else p) =
          (m.filter (fun p => p.1 == t)).map id := by
        apply List.map_congr_left
        intro p hp
        have hpt : (p.1 == t) = true := (List.mem_filter.mp hp).2
        have hpk : (p.1 == k) = false := by
          have hpt2 : p.1 = t := by simpa using hpt
          cases h2 : (p.1 == k)
          · rfl
          · exfalso
            have hpk2 : p.1 = k := by simpa using h2
            exact hkt (by rw [← hpk2, hpt2])
        rw [hpk]
        simp
      rw [hid, List.map_id]
  · have hany2 : m.any (fun p => p.1 == k) = false := by
      cases h2 : m.any (fun p => p.1 == k)
      · rfl
      · exact absurd h2 hany
    rw [if_neg hany, List.filter_append]
    by_cases hkt : k = t
    · subst hkt
      rw [filter_key_nil m k hany2]
      simp
    · rw [if_neg hkt]
      have hkv : ((k : String) == t) = false := by
        cases h2 : (k == t)
        · rfl
        · exact absurd (by simpa using h2) hkt
      simp [hkv]

/-- `mapSet` preserves the at-most-one-entry-per-key invariant. -/
theorem mapSet_keyLen {ν : Type} (m : List (String × ν)) (k : String) (v : ν)
    (hm : ∀ s : String, (m.filter (fun p => p.1 == s)).length ≤ 1) :
    ∀ s : String, ((mapSet m k v).filter (fun p => p.1 == s)).length ≤ 1 := by
  intro s
  rw [mapSet_filter m k v s (hm k)]
  by_cases hks : k = s
  · simp [hks]
  · rw [if_neg hks]; exact hm s

/-- `mapSet` with a value whose tool name is its key preserves the
key-consistency invariant. -/
theorem mapSet_keyInv (m : List (String × ToolRecord)) (e : ToolRecord)
    (hm : ∀ p ∈ m, p.2.tool = p.1) :
    ∀ p ∈ mapSet m e.tool e, p.2.tool = p.1 := by
  intro p hp
  unfold mapSet at hp
  by_cases hany : m.any (fun q => q.1 == e.tool) = true
  · rw [if_pos hany] at hp
    obtain ⟨q, hq, hfq⟩ := List.mem_map.mp hp
    by_cases hqk : (q.1 == e.tool) = true
    · rw [if_pos hqk] at hfq
      rw [← hfq]
    · rw [if_neg hqk] at hfq
      rw [← hfq]; exact hm q hq
  · rw [if_neg hany] at hp
    rcases List.mem_append.mp hp with h | h
    · exact hm p h
    · have : p = (e.tool, e) := by simpa using h
      rw [this]

/-- The tracker fold, started from any well-formed accumulator: the
entries at key `t` afterwards are exactly the last event for tool `t`
in the event list, or the accumulator's entries when no such event
arrived. -/
theorem latest_fold_filter (t : String) (l : List ToolRecord) :
    ∀ (m : List (String × ToolRecord)),
      (∀ s : String, (m.filter (fun p => p.1 == s)).length ≤ 1) →
      (l.foldl (fun acc e => mapSet acc e.tool e) m).filter (fun p => p.1 == t) =
        (((l.filter (fun r => r.tool == t)).getLast?).map
          (fun e => [((t, e) : String × ToolRecord)])).getD
          (m.filter (fun p => p.1 == t)) := by
  induction l with
  | nil => intro m _; rfl
  | cons e l ih =>
    intro m hm
    rw [List.foldl_cons, ih (mapSet m e.tool e) (mapSet_keyLen m e.tool e hm),
      List.filter_cons]
    cases het : (e.tool == t) with
    | true =>
      have het2 : e.tool = t := by simpa using het
      rw [if_pos rfl]
      rcases h2 : l.filter (fun r => r.tool == t) with _ | ⟨y, ys⟩
      · rw [h2]
        simp only [List.getLast?_nil, Option.map_none', Option.getD_none,
          List.getLast?_singleton, Option.map_some', Option.getD_some]
        rw [mapSet_filter m e.tool e t (hm e.tool), if_pos het2, het2]
      · obtain ⟨z, hz⟩ : ∃ z, (y :: ys).getLast? = some z := by
          cases hx : (y :: ys).getLast? with
          | none => exact absurd (List.getLast?_eq_none_iff.mp hx) (by simp)
          | some z => exact ⟨z, rfl⟩
        rw [h2, List.getLast?_cons_cons, hz]
        simp only [Option.map_some', Option.getD_some]
    | false =>
      have het2 : ¬ e.tool = t := by
        intro h2
        rw [h2] at het
        simp at het
      rw [if_neg Bool.false_ne_true]
      rcases h2 : l.filter (fun r => r.tool == t) with _ | ⟨y, ys⟩
      · rw [h2]
        simp only [List.getLast?_nil, Option.map_none', Option.getD_none]
        rw [mapSet_filter m e.tool e t (hm e.tool), if_neg het2]
      · obtain ⟨z, hz⟩ : ∃ z, (y :: ys).getLast? = some z := by
          cases hx : (y :: ys).getLast? with
          | none => exact absurd (List.getLast?_eq_none_iff.mp hx) (by simp)
          | some z => exact ⟨z, rfl⟩
        rw [h2, hz]
        simp only [Option.map_some', Option.getD_some]

/-- Filtering the tracker's values by tool name agrees with filtering its
entries by key, under the key-consistency invariant. -/
theorem map_snd_filter_tool (M : List (String × ToolRecord)) (t : String)
    (hM : ∀ p ∈ M, p.2.tool = p.1) :
    (M.map (fun p => p.2)).filter (fun r => r.tool == t) =
      (M.filter (fun p => p.1 == t)).map (fun p => p.2) := by
  induction M with
  | nil => rfl
  | cons q M ih =>
    have hq : q.2.tool = q.1 := hM q (List.mem_cons_self q M)
    have hrest : ∀ p ∈ M, p.2.tool = p.1 :=
      fun p hp => hM p (List.mem_cons_of_mem q hp)
    simp only [List.map_cons, List.filter_cons, hq]
    cases hc : (q.1 == t) with
    | true => simp [ih hrest]
    | false => simp [ih hrest]

/-- The tracker fold preserves key consistency. -/
theorem fold_keyInv (l : List ToolRecord) :
    ∀ m : List (String × ToolRecord), (∀ p ∈ m, p.2.tool = p.1) →
      ∀ p ∈ l.foldl (fun acc e => mapSet acc e.tool e) m, p.2.tool = p.1 := by
  induction l with
  | nil => intro m hm; exact hm
  | cons e l ih =>
    intro m hm
    rw [List.foldl_cons]
    exact ih (mapSet m e.tool e) (mapSet_keyInv m e hm)

/-- C3: the Tool Status Tracker keeps exactly one record per tool name —
for every event sequence and tool name, the deduplicated records whose
name is `t` are exactly the last event received for `t` (arrival order,
never consulting timestamps, never deleting); in particular applying
started then completed for tool "X" leaves exactly one record for "X",
with status completed. -/
theorem tracker_last_event_per_tool :
    (∀ (events : List ToolRecord) (t : String),
      (latestByTool events).filter (fun r => r.tool == t) =
        ((events.filter (fun r => r.tool == t)).getLast?).toList) ∧
    latestByTool [⟨("X"), ("started"), ("t1"), none⟩,
        ⟨("X"), ("completed"), ("t2"), none⟩] =
      [⟨("X"), ("completed"), ("t2"), none⟩] := by
  constructor
  · intro events t
    unfold latestByTool
    rw [map_snd_filter_tool _ t
      (fold_keyInv events [] (fun p hp => absurd hp (List.not_mem_nil p)))]
    rw [latest_fold_filter t events [] (fun s => by simp)]
    cases h : (events.filter (fun r => r.tool == t)).getLast? with
    | none => rfl
    | some e => rfl
  · rfl

/-- Both opening delimiters are nonempty. -/
theorem openTok_ne_nil (k : MarkKind) : openTok k ≠ [] := by
  cases k <;> decide

/-- Both closing delimiters are nonempty. -/
theorem closeTok_ne_nil (k : MarkKind) : closeTok k ≠ [] := by
  cases k <;> decide

/-- The two opening delimiters cannot both be prefixes of one string. -/
theorem not_both_open (u : Str) :
    (openTok .tool) <+: u → (openTok .reasoning) <+: u → False := by
  intro h1 h2
  rcases List.prefix_or_prefix_of_prefix h1 h2 with h | h
  · exact absurd h (by decide)
  · exact absurd h (by decide)

/-- Occurrence positions shift one step under cons. -/
theorem occAt_cons_succ (tok : Str) (c : Char) (s : Str) (p : Nat) :
    occAt tok (c :: s) (p + 1) ↔ occAt tok s p := Iff.rfl

/-- An occurrence inside a string survives appending on the right. -/
theorem occAt_mono (tok u v : Str) (p : Nat) :
    occAt tok u p → occAt tok (u ++ v) p := by
  intro h
  unfold occAt at h ⊢
  by_cases hp : p ≤ u.length
  · rw [List.drop_append_of_le_length hp]
    exact h.trans (List.prefix_append _ _)
  · have : u.drop p = [] := List.drop_eq_nil_of_le (by omega)
    rw [this] at h
    have : tok = [] := List.prefix_nil.mp h
    rw [this]
    exact List.nil_prefix
 
/-- A nonempty token has no occurrence in a string it does not fit in
before the end, given the no-occurrence bound over a right extension. -/
theorem noTokAll_of_before (tok w s2 : Str) (htok : tok ≠ [])
    (h : NoTokBefore tok (w ++ s2) w.length) : NoTokAll tok w := by
  intro p
  intro hocc
  by_cases hp : p < w.length
  · exact h p hp (occAt_mono tok w s2 p hocc)
  · unfold occAt at hocc
    rw [List.drop_eq_nil_of_le (by omega)] at hocc
    exact htok (List.prefix_nil.mp hocc)

/-- Specialization of `noTokAll_of_before` to both opening tokens. -/
theorem noOpenAll_of_before (w s2 : Str)
    (h : NoOpenBefore (w ++ s2) w.length) : NoOpenAll w := by
  intro p
  constructor
  · exact noTokAll_of_before _ w s2 (openTok_ne_nil .tool)
      (fun q hq => (h q hq).1) p
  · exact noTokAll_of_before _ w s2 (openTok_ne_nil .reasoning)
      (fun q hq => (h q hq).2) p

/-- Soundness of `findOpen`: a hit decomposes the input at the earliest
opening delimiter. -/
theorem findOpen_sound (s : Str) :
    ∀ (pre : Str) (k : MarkKind) (rest : Str),
      findOpen s = some (pre, k, rest) →
      s = pre ++ openTok k ++ rest ∧ NoOpenBefore s pre.length := by
  induction s with
  | nil =>
    intro pre k rest h
    have hnil : findOpen ([] : Str) = none := rfl
    rw [hnil] at h
    exact nomatch h
  | cons c cs ih =>
    intro pre k rest h
    rw [findOpen] at h
    by_cases h1 : (openTok .tool).isPrefixOf (c :: cs) = true
    · rw [if_pos h1] at h
      simp only [Option.some.injEq, Prod.mk.injEq] at h
      obtain ⟨hpre, hk, hrest⟩ := h
      subst hpre
      subst hk
      subst hrest
      obtain ⟨t, ht⟩ := List.isPrefixOf_iff_prefix.mp h1
      have hdrop : (c :: cs).drop (openTok .tool).length = t := by
        rw [← ht, List.drop_left]
      constructor
      · rw [List.nil_append, hdrop]
        exact ht.symm
      · intro p hp
        exact absurd hp (by simp)
    · rw [if_neg h1] at h
      by_cases h2 : (openTok .reasoning).isPrefixOf (c :: cs) = true
      · rw [if_pos h2] at h
        simp only [Option.some.injEq, Prod.mk.injEq] at h
        obtain ⟨hpre, hk, hrest⟩ := h
        subst hpre
        subst hk
        subst hrest
        obtain ⟨t, ht⟩ := List.isPrefixOf_iff_prefix.mp h2
        have hdrop : (c :: cs).drop (openTok .reasoning).length = t := by
          rw [← ht, List.drop_left]
        constructor
        · rw [List.nil_append, hdrop]
          exact ht.symm
        · intro p hp
          exact absurd hp (by simp)
      · rw [if_neg h2] at h
        cases hfo : findOpen cs with
        | none => rw [hfo] at h; exact nomatch h
        | some q =>
          rw [hfo] at h
          obtain ⟨q1, q2, q3⟩ := q
          simp only [Option.map_some', Option.some.injEq, Prod.mk.injEq] at h
          obtain ⟨hpre, hk, hrest⟩ := h
          subst hpre
          subst hk
          subst hrest
          obtain ⟨heq, hno⟩ := ih q1 q2 q3 hfo
          constructor
          · simp [heq]
          · intro p hp
            match p with
            | 0 =>
              constructor
              · intro hocc
                exact h1 (List.isPrefixOf_iff_prefix.mpr hocc)
              · intro hocc
                exact h2 (List.isPrefixOf_iff_prefix.mpr hocc)
            | p + 1 =>
              have hp2 : p < q1.length := by
                simp only [List.length_cons] at hp
                omega
              exact hno p hp2

/-- A missed `findOpen` scan means no opening delimiter occurs at all. -/
theorem findOpen_none_sound (s : Str) :
    findOpen s = none → NoOpenAll s := by
  induction s with
  | nil =>
    intro _ p
    constructor <;> intro hocc <;>
      [exact openTok_ne_nil .tool (List.prefix_nil.mp (by simpa [occAt] using hocc));
       exact openTok_ne_nil .reasoning (List.prefix_nil.mp (by simpa [occAt] using hocc))]
  | cons c cs ih =>
    intro h
    rw [findOpen] at h
    by_cases h1 : (openTok .tool).isPrefixOf (c :: cs) = true
    · rw [if_pos h1] at h; exact nomatch h
    · rw [if_neg h1] at h
      by_cases h2 : (openTok .reasoning).isPrefixOf (c :: cs) = true
      · rw [if_pos h2] at h; exact nomatch h
      · rw [if_neg h2] at h
        have hcs : findOpen cs = none := by
          cases hfo : findOpen cs with
          | none => rfl
          | some q => rw [hfo] at h; exact nomatch h
        have ihcs := ih hcs
        intro p
        match p with
        | 0 =>
          constructor
          · intro hocc; exact h1 (List.isPrefixOf_iff_prefix.mpr hocc)
          · intro hocc; exact h2 (List.isPrefixOf_iff_prefix.mpr hocc)
        | p + 1 => exact ihcs p

/-- Completeness of `findOpen`: given the no-earlier-occurrence bound,
the scan finds exactly the designated delimiter. -/
theorem findOpen_complete (k : MarkKind) :
    ∀ (pre rest : Str), NoOpenBefore (pre ++ openTok k ++ rest) pre.length →
      findOpen (pre ++ openTok k ++ rest) = some (pre, k, rest) := by
  intro pre
  induction pre with
  | nil =>
    intro rest _
    simp only [List.nil_append]
    rw [findOpen.eq_def]
    cases k with
    | tool =>
      rw [if_pos (List.isPrefixOf_iff_prefix.mpr (List.prefix_append _ _)),
        List.drop_left]
    | reasoning =>
      have h1 : ¬ (openTok .tool).isPrefixOf
          (openTok .reasoning ++ rest) = true := by
        intro hpre
        exact not_both_open _ (List.isPrefixOf_iff_prefix.mp hpre)
          (List.prefix_append _ _)
      rw [if_neg h1,
        if_pos (List.isPrefixOf_iff_prefix.mpr (List.prefix_append _ _)),
        List.drop_left]
  | cons c pre ih =>
    intro rest hno
    have h0 := hno 0 (by simp)
    have h1 : ¬ (openTok .tool).isPrefixOf
        ((c :: pre) ++ openTok k ++ rest) = true := by
      intro hpre
      exact h0.1 (List.isPrefixOf_iff_prefix.mp hpre)
    have h2 : ¬ (openTok .reasoning).isPrefixOf
        ((c :: pre) ++ openTok k ++ rest) = true := by
      intro hpre
      exact h0.2 (List.isPrefixOf_iff_prefix.mp hpre)
    have hshift : NoOpenBefore (pre ++ openTok k ++ rest) pre.length :=
      fun p hp => hno (p + 1) (by simp [Nat.succ_lt_succ_iff, hp])
    rw [show (c :: pre) ++ openTok k ++ rest =
      c :: (pre ++ openTok k ++ rest) from rfl] at h1 h2 ⊢
    rw [findOpen, if_neg h1, if_neg h2, ih rest hshift]
    rfl

/-- Completeness of the miss case of `findOpen`. -/
theorem findOpen_none_complete (s : Str) (hno : NoOpenAll s) :
    findOpen s = none := by
  induction s with
  | nil => rfl
  | cons c cs ih =>
    have h0 := hno 0
    have h1 : ¬ (openTok .tool).isPrefixOf (c :: cs) = true :=
      fun hpre => h0.1 (List.isPrefixOf_iff_prefix.mp hpre)
    have h2 : ¬ (openTok .reasoning).isPrefixOf (c :: cs) = true :=
      fun hpre => h0.2 (List.isPrefixOf_iff_prefix.mp hpre)
    rw [findOpen, if_neg h1, if_neg h2, ih (fun p => hno (p + 1))]
    rfl

/-- Soundness of `findTok`. -/
theorem findTok_sound (tok : Str) (htok : tok ≠ []) (s : Str) :
    ∀ (p r : Str), findTok tok s = some (p, r) →
      s = p ++ tok ++ r ∧ NoTokBefore tok s p.length := by
  induction s with
  | nil =>
    intro p r h
    rw [findTok] at h
    have hpre : ¬ tok.isPrefixOf ([] : Str) = true := by
      intro hpre
      exact htok (List.prefix_nil.mp (List.isPrefixOf_iff_prefix.mp hpre))
    rw [if_neg hpre] at h
    exact nomatch h
  | cons c cs ih =>
    intro p r h
    rw [findTok] at h
    by_cases h1 : tok.isPrefixOf (c :: cs) = true
    · rw [if_pos h1] at h
      simp only [Option.some.injEq, Prod.mk.injEq] at h
      obtain ⟨hp, hr⟩ := h
      subst hp
      subst hr
      obtain ⟨t, ht⟩ := List.isPrefixOf_iff_prefix.mp h1
      have hdrop : (c :: cs).drop tok.length = t := by
        rw [← ht, List.drop_left]
      constructor
      · rw [List.nil_append, hdrop]
        exact ht.symm
      · intro q hq
        exact absurd hq (by simp)
    · rw [if_neg h1] at h
      cases hft : findTok tok cs with
      | none => rw [hft] at h; exact nomatch h
      | some q =>
        rw [hft] at h
        obtain ⟨q1, q2⟩ := q
        simp only [Option.map_some', Option.some.injEq, Prod.mk.injEq] at h
        obtain ⟨hp, hr⟩ := h
        subst hp
        subst hr
        obtain ⟨heq, hno⟩ := ih q1 q2 hft
        constructor
        · simp [heq]
        · intro q hq
          match q with
          | 0 =>
            intro hocc
            exact h1 (List.isPrefixOf_iff_prefix.mpr hocc)
          | q + 1 =>
            have hq2 : q < q1.length := by
              simp only [List.length_cons] at hq
              omega
            exact hno q hq2

/-- A missed `findTok` scan means no occurrence at all. -/
theorem findTok_none_sound (tok : Str) (htok : tok ≠ []) (s : Str) :
    findTok tok s = none → NoTokAll tok s := by
  induction s with
  | nil =>
    intro _ p hocc
    exact htok (List.prefix_nil.mp (by simpa [occAt] using hocc))
  | cons c cs ih =>
    intro h
    rw [findTok] at h
    by_cases h1 : tok.isPrefixOf (c :: cs) = true
    · rw [if_pos h1] at h; exact nomatch h
    · rw [if_neg h1] at h
      have hcs : findTok tok cs = none := by
        cases hft : findTok tok cs with
        | none => rfl
        | some q => rw [hft] at h; exact nomatch h
      have ihcs := ih hcs
      intro p
      match p with
      | 0 =>
        intro hocc
        exact h1 (List.isPrefixOf_iff_prefix.mpr hocc)
      | p + 1 => exact ihcs p

/-- Completeness of `findTok`. -/
theorem findTok_complete (tok : Str) :
    ∀ (p r : Str), NoTokBefore tok (p ++ tok ++ r) p.length →
      findTok tok (p ++ tok ++ r) = some (p, r) := by
  intro p
  induction p with
  | nil =>
    intro r _
    simp only [List.nil_append]
    rw [findTok.eq_def,
      if_pos (List.isPrefixOf_iff_prefix.mpr (List.prefix_append _ _)),
      List.drop_left]
  | cons c p ih =>
    intro r hno
    have h0 : ¬ tok.isPrefixOf ((c :: p) ++ tok ++ r) = true := by
      intro hpre
      exact hno 0 (by simp) (List.isPrefixOf_iff_prefix.mp hpre)
    have hshift : NoTokBefore tok (p ++ tok ++ r) p.length :=
      fun q hq => hno (q + 1) (by simp [Nat.succ_lt_succ_iff, hq])
    rw [show (c :: p) ++ tok ++ r = c :: (p ++ tok ++ r) from rfl] at h0 ⊢
    rw [findTok, if_neg h0, ih r hshift]
    rfl

/-- Unfolding the classifier loop when no opening delimiter is found. -/
theorem classifyLoopF_none (fuel : Nat) (s : Str) (hfo : findOpen s = none) :
    classifyLoopF (fuel + 1) s =
      (if s.isEmpty then ([], [])
       else if wsOnly s then ([], s)
       else ([segFrame s], [])) := by
  rw [classifyLoopF, hfo]

/-- Unfolding the classifier loop at an opening delimiter. -/
theorem classifyLoopF_open (fuel : Nat) (s pre : Str) (k : MarkKind)
    (rest : Str) (hfo : findOpen s = some (pre, k, rest)) :
    classifyLoopF (fuel + 1) s =
      (match findTok (closeTok k) rest with
       | none => (preF pre, openTok k ++ rest)
       | some (payload, rest2) =>
         (preF pre ++ .marked k payload :: (classifyLoopF fuel rest2).1,
          (classifyLoopF fuel rest2).2)) := by
  rw [classifyLoopF, hfo]

/-- Unfolding the classifier loop at an unmatched opening delimiter. -/
theorem classifyLoopF_noclose (fuel : Nat) (s pre : Str) (k : MarkKind)
    (rest : Str) (hfo : findOpen s = some (pre, k, rest))
    (hft : findTok (closeTok k) rest = none) :
    classifyLoopF (fuel + 1) s = (preF pre, openTok k ++ rest) := by
  rw [classifyLoopF_open fuel s pre k rest hfo, hft]

/-- Unfolding the classifier loop at a complete marked frame. -/
theorem classifyLoopF_step (fuel : Nat) (s pre : Str) (k : MarkKind)
    (rest payload rest2 : Str)
    (hfo : findOpen s = some (pre, k, rest))
    (hft : findTok (closeTok k) rest = some (payload, rest2)) :
    classifyLoopF (fuel + 1) s =
      (preF pre ++ .marked k payload :: (classifyLoopF fuel rest2).1,
       (classifyLoopF fuel rest2).2) := by
  rw [classifyLoopF_open fuel s pre k rest hfo, hft]

/-- A complete marked frame strictly shrinks the scanned string. -/
theorem step_length_lt (s pre : Str) (k : MarkKind) (rest payload rest2 : Str)
    (hfo : findOpen s = some (pre, k, rest))
    (hft : findTok (closeTok k) rest = some (payload, rest2)) :
    rest2.length < s.length := by
  have hs := (findOpen_sound s pre k rest hfo).1
  have hr := (findTok_sound (closeTok k) (closeTok_ne_nil k)
    rest payload rest2 hft).1
  have hop : 0 < (openTok k).length := List.length_pos.mpr (openTok_ne_nil k)
  have hcp : 0 < (closeTok k).length := List.length_pos.mpr (closeTok_ne_nil k)
  rw [hs, hr]
  simp only [List.length_append]
  omega

/-- The classifier loop result does not depend on the fuel, as long as
there is enough of it. -/
theorem classifyLoopF_fuel :
    ∀ (f1 f2 : Nat) (s : Str), s.length < f1 → s.length < f2 →
      classifyLoopF f1 s = classifyLoopF f2 s := by
  intro f1
  induction f1 with
  | zero => intro f2 s h1 _; omega
  | succ f1 ih =>
    intro f2 s h1 h2
    cases f2 with
    | zero => omega
    | succ f2 =>
      cases hfo : findOpen s with
      | none => rw [classifyLoopF_none f1 s hfo, classifyLoopF_none f2 s hfo]
      | some q =>
        obtain ⟨pre, k, rest⟩ := q
        cases hft : findTok (closeTok k) rest with
        | none =>
          rw [classifyLoopF_noclose f1 s pre k rest hfo hft,
            classifyLoopF_noclose f2 s pre k rest hfo hft]
        | some pr =>
          obtain ⟨payload, rest2⟩ := pr
          have hlen := step_length_lt s pre k rest payload rest2 hfo hft
          rw [classifyLoopF_step f1 s pre k rest payload rest2 hfo hft,
            classifyLoopF_step f2 s pre k rest payload rest2 hfo hft,
            ih f2 rest2 (by omega) (by omega)]

/-- Soundness of the classifier loop with respect to the classification
relation. -/
theorem classifyLoopF_sound :
    ∀ (fuel : Nat) (s : Str) (fs : List LogicalFrame) (r : Str),
      s.length < fuel → classifyLoopF fuel s = (fs, r) → CL s fs r := by
  intro fuel
  induction fuel with
  | zero => intro s _ _ h1 _; omega
  | succ fuel ih =>
    intro s fs r hlen h
    cases hfo : findOpen s with
    | none =>
      rw [classifyLoopF_none fuel s hfo] at h
      have hno := findOpen_none_sound s hfo
      by_cases hemp : s.isEmpty = true
      · rw [if_pos hemp] at h
        have hse : s = [] := by
          cases s with
          | nil => rfl
          | cons c cs => exact nomatch hemp
        obtain ⟨hfs, hr⟩ : ([] : List LogicalFrame) = fs ∧ ([] : Str) = r := by
          refine ⟨?_, ?_⟩ <;> cases h <;> rfl
        rw [hse, ← hfs, ← hr]
        exact CL.nil
      · rw [if_neg hemp] at h
        have hne : s ≠ [] := by
          intro hse
          rw [hse] at hemp
          exact hemp rfl
        by_cases hws : wsOnly s = true
        · rw [if_pos hws] at h
          obtain ⟨hfs, hr⟩ : ([] : List LogicalFrame) = fs ∧ s = r := by
            refine ⟨?_, ?_⟩ <;> cases h <;> rfl
          rw [← hfs, ← hr]
          exact CL.deferWs s hne hws hno
        · rw [if_neg hws] at h
          obtain ⟨hfs, hr⟩ : [segFrame s] = fs ∧ ([] : Str) = r := by
            refine ⟨?_, ?_⟩ <;> cases h <;> rfl
          rw [← hfs, ← hr]
          exact CL.lastSeg s hne (by
            cases hws2 : wsOnly s with
            | true => exact absurd hws2 hws
            | false => rfl) hno
    | some q =>
      obtain ⟨pre, k, rest⟩ := q
      obtain ⟨hs, hno⟩ := findOpen_sound s pre k rest hfo
      cases hft : findTok (closeTok k) rest with
      | none =>
        rw [classifyLoopF_noclose fuel s pre k rest hfo hft] at h
        have hnc := findTok_none_sound (closeTok k) (closeTok_ne_nil k) rest hft
        obtain ⟨hfs, hr⟩ : preF pre = fs ∧ openTok k ++ rest = r := by
          refine ⟨?_, ?_⟩ <;> cases h <;> rfl
        rw [← hfs, ← hr, hs]
        exact CL.noClose pre k rest (hs ▸ hno) hnc
      | some pr =>
        obtain ⟨payload, rest2⟩ := pr
        rw [classifyLoopF_step fuel s pre k rest payload rest2 hfo hft] at h
        obtain ⟨hrest, hnc⟩ := findTok_sound (closeTok k) (closeTok_ne_nil k)
          rest payload rest2 hft
        have hlen2 : rest2.length < fuel := by
          have := step_length_lt s pre k rest payload rest2 hfo hft
          omega
        have hcl := ih rest2 (classifyLoopF fuel rest2).1
          (classifyLoopF fuel rest2).2 hlen2 rfl
        obtain ⟨hfs, hr⟩ :
            preF pre ++ .marked k payload :: (classifyLoopF fuel rest2).1 = fs ∧
            (classifyLoopF fuel rest2).2 = r := by
          refine ⟨?_, ?_⟩ <;> cases h <;> rfl
        rw [← hfs, ← hr, hs, hrest]
        have hstep := CL.step pre k payload rest2
          (classifyLoopF fuel rest2).1 (classifyLoopF fuel rest2).2
          (by
            have h5 := hs ▸ hno
            rw [hrest] at h5
            simpa [List.append_assoc] using h5)
          (hrest ▸ hnc) hcl
        simpa [List.append_assoc] using hstep

/-- Re-sniffing a cut segment returns its raw characters. -/
theorem renderFrame_segFrame (s : Str) : renderFrame (segFrame s) = s := by
  unfold segFrame
  cases parseJson (trimStr s) with
  | none => rfl
  | some j =>
    by_cases hc : isContainer j = true
    · simp [if_pos hc, renderFrame]
    · simp [hc, renderFrame]

/-- Rendering distributes over cons. -/
theorem renderAll_cons (f : LogicalFrame) (fs : List LogicalFrame) :
    renderAll (f :: fs) = renderFrame f ++ renderAll fs := by
  simp [renderAll]

/-- Rendering distributes over append. -/
theorem renderAll_append (a b : List LogicalFrame) :
    renderAll (a ++ b) = renderAll a ++ renderAll b := by
  simp [renderAll]

/-- Rendering the frames of a pre-marker segment gives it back. -/
theorem renderAll_preF (pre : Str) : renderAll (preF pre) = pre := by
  unfold preF
  by_cases hp : pre.isEmpty = true
  · have hpe : pre = [] := by
      cases pre with
      | nil => rfl
      | cons c cs => exact nomatch hp
    simp [hp, hpe, renderAll]
  · simp [hp, renderAll, renderFrame_segFrame]

/-- A classification decomposes the input into the rendered frames
followed by the remainder. -/
theorem CL_render (s : Str) (fs : List LogicalFrame) (r : Str)
    (h : CL s fs r) : renderAll fs ++ r = s := by
  induction h with
  | nil => rfl
  | deferWs s hne hws hno => rfl
  | lastSeg s hne hws hno =>
    simp [renderAll, renderFrame_segFrame]
  | noClose pre k rest hno hnc =>
    rw [renderAll_preF, List.append_assoc]
  | step pre k payload rest fs r hno hnc htl ih =>
    rw [renderAll_append, renderAll_cons, renderAll_preF, renderFrame]
    simp only [List.append_assoc, ih]

/-- A sniffed segment is never a marked frame. -/
theorem segFrame_ne_marked (w : Str) (k : MarkKind) (p : Str) :
    segFrame w ≠ .marked k p := by
  intro h
  unfold segFrame at h
  split at h
  · split at h
    · exact nomatch h
    · exact nomatch h
  · exact nomatch h

/-- A segment sniffed as plain text carries its raw characters. -/
theorem segFrame_plainText_eq (w v : Str) :
    segFrame w = .plainText v → w = v := by
  intro h
  unfold segFrame at h
  split at h
  · split at h
    · exact nomatch h
    · injection h with h1
  · injection h with h1

/-- Whitespace-only strings trim to nothing. -/
theorem trimStr_ws (s : Str) (h : wsOnly s = true) : trimStr s = [] := by
  unfold trimStr
  have h1 : s.dropWhile wsChar = [] := by
    rw [List.dropWhile_eq_nil_iff]
    intro x hx
    exact List.all_eq_true.mp h x hx
  rw [h1]
  rfl

/-- A whitespace-only segment always sniffs as plain text. -/
theorem segFrame_ws (w : Str) (h : wsOnly w = true) :
    segFrame w = .plainText w := by
  unfold segFrame
  rw [trimStr_ws w h]
  rfl

/-- A nonempty pre-marker segment produces exactly one sniffed frame. -/
theorem preF_of_ne (pre : Str) (h : pre ≠ []) : preF pre = [segFrame pre] := by
  unfold preF
  rw [if_neg (by
    cases pre with
    | nil => exact absurd rfl h
    | cons c cs => exact fun hh => nomatch hh)]

/-- Full case inversion of the classification relation. -/
theorem CL_cases (s : Str) (fs : List LogicalFrame) (r : Str) (h : CL s fs r) :
    (s = [] ∧ fs = [] ∧ r = []) ∨
    (s ≠ [] ∧ wsOnly s = true ∧ NoOpenAll s ∧ fs = [] ∧ r = s) ∨
    (s ≠ [] ∧ wsOnly s = false ∧ NoOpenAll s ∧ fs = [segFrame s] ∧ r = []) ∨
    (∃ pre k rest, s = pre ++ openTok k ++ rest ∧ fs = preF pre ∧
      r = openTok k ++ rest ∧ NoOpenBefore s pre.length ∧
      NoTokAll (closeTok k) rest) ∨
    (∃ pre k payload rest fs1,
      s = pre ++ openTok k ++ payload ++ closeTok k ++ rest ∧
      fs = preF pre ++ .marked k payload :: fs1 ∧ NoOpenBefore s pre.length ∧
      NoTokBefore (closeTok k) (payload ++ closeTok k ++ rest) payload.length ∧
      CL rest fs1 r) := by
  cases h with
  | nil => exact Or.inl ⟨rfl, rfl, rfl⟩
  | deferWs s hne hws hno => exact Or.inr (Or.inl ⟨hne, hws, hno, rfl, rfl⟩)
  | lastSeg s hne hws hno =>
    exact Or.inr (Or.inr (Or.inl ⟨hne, hws, hno, rfl, rfl⟩))
  | noClose pre k rest hno hnc =>
    exact Or.inr (Or.inr (Or.inr (Or.inl
      ⟨pre, k, rest, rfl, rfl, rfl, hno, hnc⟩)))
  | step pre k payload rest fs1 r hno hnc htl =>
    exact Or.inr (Or.inr (Or.inr (Or.inr
      ⟨pre, k, payload, rest, fs1, rfl, rfl, hno, hnc, htl⟩)))

/-- Peeling a marked frame off a classification. -/
theorem CL_peel_marked (s : Str) (k : MarkKind) (p : Str)
    (fs2 : List LogicalFrame) (r : Str)
    (h : CL s (.marked k p :: fs2) r) :
    ∃ s2, s = openTok k ++ p ++ closeTok k ++ s2 ∧ CL s2 fs2 r ∧
      NoTokBefore (closeTok k) (p ++ closeTok k ++ s2) p.length := by
  rcases CL_cases s _ r h with
    ⟨_, hfs, _⟩ | ⟨_, _, _, hfs, _⟩ | ⟨_, _, _, hfs, _⟩ |
    ⟨pre, k2, rest, hs, hfs, hr, hno, hnc⟩ |
    ⟨pre, k2, payload, rest, fs1, hs, hfs, hno, hnc, htl⟩
  · exact nomatch hfs
  · exact nomatch hfs
  · injection hfs with h1 h2
    exact absurd h1.symm (segFrame_ne_marked s k p)
  · by_cases hp : pre = []
    · rw [hp] at hfs
      exact nomatch hfs
    · rw [preF_of_ne pre hp] at hfs
      injection hfs with h1 _
      exact absurd h1.symm (segFrame_ne_marked pre k p)
  · by_cases hp : pre = []
    · subst hp
      have hpf : preF ([] : Str) = [] := rfl
      rw [hpf, List.nil_append] at hfs
      injection hfs with h1 h2
      injection h1 with hk hp2
      subst hk
      subst hp2
      subst h2
      refine ⟨rest, ?_, htl, hnc⟩
      rw [hs, List.nil_append]
    · rw [preF_of_ne pre hp] at hfs
      injection hfs with h1 _
      exact absurd h1.symm (segFrame_ne_marked pre k p)

/-- Peeling a segment frame off a classification: it is a sniffed
nonempty segment with no opening delimiter inside, and the remaining
frames start with a marked frame (or end). -/
theorem CL_peel_seg (s : Str) (f : LogicalFrame) (fs2 : List LogicalFrame)
    (r : Str) (h : CL s (f :: fs2) r)
    (hf : ∀ k p, f ≠ LogicalFrame.marked k p) :
    ∃ w s2, f = segFrame w ∧ w ≠ [] ∧ s = w ++ s2 ∧
      NoOpenBefore s w.length ∧ CL s2 fs2 r ∧
      (fs2 = [] ∨ ∃ k p fs3, fs2 = LogicalFrame.marked k p :: fs3) := by
  rcases CL_cases s _ r h with
    ⟨_, hfs, _⟩ | ⟨_, _, _, hfs, _⟩ |
    ⟨hne, hws, hno, hfs, hr⟩ |
    ⟨pre, k2, rest, hs, hfs, hr, hno, hnc⟩ |
    ⟨pre, k2, payload, rest, fs1, hs, hfs, hno, hnc, htl⟩
  · exact nomatch hfs
  · exact nomatch hfs
  · injection hfs with h1 h2
    subst h2
    subst hr
    refine ⟨s, [], h1, hne, (List.append_nil s).symm, ?_, CL.nil, Or.inl rfl⟩
    intro p hp
    exact hno p
  · by_cases hp : pre = []
    · rw [hp] at hfs
      exact nomatch hfs
    · rw [preF_of_ne pre hp] at hfs
      injection hfs with h1 h2
      subst h2
      subst hr
      refine ⟨pre, openTok k2 ++ rest, h1, hp, by simp [hs], ?_, ?_, Or.inl rfl⟩
      · exact hno
      · have hcl := CL.noClose [] k2 rest (fun p hp2 => absurd hp2 (by simp)) hnc
        have hpf : preF ([] : Str) = [] := rfl
        rw [hpf, List.nil_append] at hcl
        exact hcl
  · by_cases hp : pre = []
    · subst hp
      have hpf : preF ([] : Str) = [] := rfl
      rw [hpf, List.nil_append] at hfs
      injection hfs with h1 _
      exact absurd h1 (hf k2 payload)
    · rw [preF_of_ne pre hp] at hfs
      injection hfs with h1 h2
      subst h2
      refine ⟨pre, openTok k2 ++ payload ++ closeTok k2 ++ rest, h1, hp,
        by simp [hs], ?_, ?_, Or.inr ⟨k2, payload, fs1, rfl⟩⟩
      · exact hno
      · have hcl := CL.step [] k2 payload rest fs1 r
          (fun p hp2 => absurd hp2 (by simp)) hnc htl
        have hpf : preF ([] : Str) = [] := rfl
        rw [hpf, List.nil_append] at hcl
        exact hcl

/-- A complete classification never ends in a lone whitespace-only text
frame: such a segment would have been deferred, not emitted. -/
theorem CL_not_single_ws (s w : Str) (hws : wsOnly w = true) :
    ¬ CL s [.plainText w] [] := by
  intro h
  rcases CL_cases s _ _ h with
    ⟨_, hfs, _⟩ | ⟨_, _, _, hfs, _⟩ |
    ⟨hne, hws2, hno, hfs, hr⟩ |
    ⟨pre, k2, rest, hs, hfs, hr, hno, hnc⟩ |
    ⟨pre, k2, payload, rest, fs1, hs, hfs, hno, hnc, htl⟩
  · exact nomatch hfs
  · exact nomatch hfs
  · injection hfs with h1 h2
    have := segFrame_plainText_eq s w h1.symm
    rw [this] at hws2
    rw [hws] at hws2
    exact nomatch hws2
  · have := hr.symm
    have hop : openTok k2 ≠ [] := openTok_ne_nil k2
    rcases List.append_eq_nil.mp this with ⟨h1, _⟩
    exact hop h1
  · by_cases hp : pre = []
    · subst hp
      have hpf : preF ([] : Str) = [] := rfl
      rw [hpf, List.nil_append] at hfs
      injection hfs with h1 _
      exact nomatch h1
    · rw [preF_of_ne pre hp] at hfs
      injection hfs with _ h2
      exact nomatch h2

/-- Unfolding `classifyLoop` when no opening delimiter occurs. -/
theorem classifyLoop_noOpen (w : Str) (hfo : findOpen w = none) :
    classifyLoop w =
      (if w.isEmpty then ([], [])
       else if wsOnly w then ([], w)
       else ([segFrame w], [])) := by
  unfold classifyLoop
  exact classifyLoopF_none w.length w hfo

/-- A nonempty list is not `isEmpty`. -/
theorem isEmpty_false_of_ne (w : Str) (h : w ≠ []) : w.isEmpty = false := by
  cases w with
  | nil => exact absurd rfl h
  | cons c cs => rfl

/-- The auxiliary seg-headed case of the per-chunk classification lemma:
a chunk beginning with a sniffed segment frame.  The induction hypothesis
is passed explicitly. -/
theorem chunkRunSegAux (f : LogicalFrame) (hf : ∀ k p, f ≠ .marked k p)
    (gt : List LogicalFrame) (s : Str) (fs2 : List LogicalFrame) (r : Str)
    (h : CL s ((f :: gt) ++ fs2) r)
    (IH : ∀ g2 : List LogicalFrame, g2.length ≤ gt.length →
      ∀ (s2 : Str) (fs3 : List LogicalFrame) (r2 : Str),
        CL s2 (g2 ++ fs3) r2 → ChunkConcl g2 s2 fs3 r2) :
    ChunkConcl (f :: gt) s fs2 r := by
  obtain ⟨w, s2, hfw, hwne, hsw, hno, hcl2, hshape⟩ :=
    CL_peel_seg s f (gt ++ fs2) r (by simpa using h) hf
  cases gt with
  | nil =>
    have hrw : renderAll [f] = w := by
      rw [renderAll_cons, hfw, renderFrame_segFrame]
      simp [renderAll]
    have hnoall : NoOpenAll w := by
      apply noOpenAll_of_before w s2
      rw [← hsw]
      exact hno
    have hfo : findOpen w = none := findOpen_none_complete w hnoall
    have hdrop2 : s.drop w.length = s2 := by
      rw [hsw]
      exact List.drop_left w s2
    have hemp : ¬ w.isEmpty = true := by
      rw [isEmpty_false_of_ne w hwne]
      exact Bool.false_ne_true
    by_cases hws : wsOnly w = true
    · unfold ChunkConcl
      right
      refine ⟨[], w, ?_, hwne, hws, ?_, ?_⟩
      · rw [hfw, segFrame_ws w hws, List.nil_append]
      · rw [hrw, classifyLoop_noOpen w hfo, if_neg hemp, if_pos hws]
      · rw [hrw, hdrop2, ← hsw, ← segFrame_ws w hws, ← hfw]
        simpa using h
    · unfold ChunkConcl
      left
      constructor
      · rw [hrw, classifyLoop_noOpen w hfo, if_neg hemp, if_neg hws, ← hfw]
      · rw [hrw, hdrop2]
        simpa using hcl2
  | cons f2 gt2 =>
    have hmk : ∃ k p fs3, f2 :: (gt2 ++ fs2) = LogicalFrame.marked k p :: fs3 := by
      rcases hshape with hnil | ⟨k, p, fs3, heq⟩
      · exact absurd hnil (by simp)
      · exact ⟨k, p, fs3, by simpa using heq⟩
    obtain ⟨k, p, fs3, heq⟩ := hmk
    have hf2 : f2 = .marked k p := by
      injection heq with h1 _
    have hfs3 : gt2 ++ fs2 = fs3 := by
      injection heq with _ h2
    subst hf2
    have hclm : CL s2 (.marked k p :: (gt2 ++ fs2)) r := by simpa using hcl2
    obtain ⟨s4, hs4, hcl4, hnc⟩ := CL_peel_marked s2 k p (gt2 ++ fs2) r hclm
    have hs4r : renderAll (gt2 ++ fs2) ++ r = s4 := CL_render s4 _ r hcl4
    have hs4x : s4 = renderAll gt2 ++ (renderAll fs2 ++ r) := by
      rw [← hs4r, renderAll_append]
      simp [List.append_assoc]
    have hchunk : renderAll (f :: .marked k p :: gt2) =
        w ++ (openTok k ++ (p ++ (closeTok k ++ renderAll gt2))) := by
      rw [renderAll_cons, renderAll_cons, renderFrame, hfw, renderFrame_segFrame]
      simp [List.append_assoc]
    have hsfull : s = (w ++ (openTok k ++ (p ++ (closeTok k ++ renderAll gt2)))) ++
        (renderAll fs2 ++ r) := by
      rw [hsw, hs4, hs4x]
      simp [List.append_assoc]
    have hfo : findOpen (renderAll (f :: .marked k p :: gt2)) =
        some (w, k, p ++ closeTok k ++ renderAll gt2) := by
      rw [hchunk]
      have hnob : NoOpenBefore
          (w ++ (openTok k ++ (p ++ (closeTok k ++ renderAll gt2)))) w.length := by
        intro q hq
        constructor
        · intro hocc
          exact (hno q hq).1 (by
            rw [hsfull]
            exact occAt_mono _ _ _ q hocc)
        · intro hocc
          exact (hno q hq).2 (by
            rw [hsfull]
            exact occAt_mono _ _ _ q hocc)
      have hc := findOpen_complete k w (p ++ closeTok k ++ renderAll gt2)
        (by simpa [List.append_assoc] using hnob)
      simpa [List.append_assoc] using hc
    have hft : findTok (closeTok k) (p ++ closeTok k ++ renderAll gt2) =
        some (p, renderAll gt2) := by
      apply findTok_complete
      intro q hq hocc
      apply hnc q hq
      have hmono := occAt_mono (closeTok k) (p ++ closeTok k ++ renderAll gt2)
        (renderAll fs2 ++ r) q hocc
      rw [hs4x]
      simpa [List.append_assoc] using hmono
    have hstep := classifyLoopF_step (renderAll (f :: .marked k p :: gt2)).length
      (renderAll (f :: .marked k p :: gt2)) w k
      (p ++ closeTok k ++ renderAll gt2) p (renderAll gt2) hfo hft
    have hfuel : classifyLoopF (renderAll (f :: .marked k p :: gt2)).length
        (renderAll gt2) = classifyLoop (renderAll gt2) := by
      apply classifyLoopF_fuel
      · rw [hchunk]
        simp only [List.length_append]
        have := List.length_pos.mpr (openTok_ne_nil k)
        omega
      · omega
    have hcalc : classifyLoop (renderAll (f :: .marked k p :: gt2)) =
        (f :: .marked k p :: (classifyLoop (renderAll gt2)).1,
         (classifyLoop (renderAll gt2)).2) := by
      unfold classifyLoop
      rw [hstep, hfuel, preF_of_ne w hwne, ← hfw]
      rfl
    have hdrop : s.drop (renderAll (f :: .marked k p :: gt2)).length =
        s4.drop (renderAll gt2).length := by
      have hs5 : s = (w ++ (openTok k ++ (p ++ closeTok k))) ++ s4 := by
        rw [hsw, hs4]
        simp [List.append_assoc]
      have hlen : (renderAll (f :: .marked k p :: gt2)).length =
          (w ++ (openTok k ++ (p ++ closeTok k))).length +
            (renderAll gt2).length := by
        rw [hchunk]
        simp only [List.length_append]
        omega
      rw [hs5, hlen, List.drop_append]
    have hih := IH gt2 (by simp) s4 fs2 r hcl4
    unfold ChunkConcl at hih
    unfold ChunkConcl
    rcases hih with ⟨hc1, hc2⟩ | ⟨g0, w2, hg, hw1, hw2, hc1, hc2⟩
    · left
      constructor
      · rw [hcalc, hc1]
      · rw [hdrop]
        exact hc2
    · right
      refine ⟨f :: .marked k p :: g0, w2, by rw [hg]; simp, hw1, hw2, ?_, ?_⟩
      · rw [hcalc, hc1]
      · rw [hdrop]
        exact hc2

/-- Per-chunk classification: a chunk holding the rendered frames `g`
(cut from a valid classification of the full stream) classifies to
exactly `g` — except that a trailing whitespace-only text frame is
deferred as the remainder — and the rest of the stream classifies to the
remaining frames. -/
theorem chunkRun : ∀ (g : List LogicalFrame) (s : Str)
    (fs2 : List LogicalFrame) (r : Str),
    CL s (g ++ fs2) r → ChunkConcl g s fs2 r
  | [], s, fs2, r, h => by
    unfold ChunkConcl
    left
    constructor
    · rfl
    · simpa using h
  | .marked k p :: gt, s, fs2, r, h => by
    obtain ⟨s3, hs, hcl3, hnc⟩ :=
      CL_peel_marked s k p (gt ++ fs2) r (by simpa using h)
    have hs3r : renderAll (gt ++ fs2) ++ r = s3 := CL_render s3 _ r hcl3
    have hs3x : s3 = renderAll gt ++ (renderAll fs2 ++ r) := by
      rw [← hs3r, renderAll_append]
      simp [List.append_assoc]
    have hchunk : renderAll (.marked k p :: gt) =
        openTok k ++ (p ++ (closeTok k ++ renderAll gt)) := by
      rw [renderAll_cons, renderFrame]
      simp [List.append_assoc]
    have hfo : findOpen (renderAll (.marked k p :: gt)) =
        some ([], k, p ++ closeTok k ++ renderAll gt) := by
      rw [hchunk]
      have hc := findOpen_complete k [] (p ++ closeTok k ++ renderAll gt)
        (fun q hq => absurd hq (by simp))
      simpa [List.append_assoc] using hc
    have hft : findTok (closeTok k) (p ++ closeTok k ++ renderAll gt) =
        some (p, renderAll gt) := by
      apply findTok_complete
      intro q hq hocc
      apply hnc q hq
      have hmono := occAt_mono (closeTok k) (p ++ closeTok k ++ renderAll gt)
        (renderAll fs2 ++ r) q hocc
      rw [hs3x]
      simpa [List.append_assoc] using hmono
    have hstep := classifyLoopF_step (renderAll (.marked k p :: gt)).length
      (renderAll (.marked k p :: gt)) [] k
      (p ++ closeTok k ++ renderAll gt) p (renderAll gt) hfo hft
    have hfuel : classifyLoopF (renderAll (.marked k p :: gt)).length
        (renderAll gt) = classifyLoop (renderAll gt) := by
      apply classifyLoopF_fuel
      · rw [hchunk]
        simp only [List.length_append]
        have := List.length_pos.mpr (openTok_ne_nil k)
        omega
      · omega
    have hcalc : classifyLoop (renderAll (.marked k p :: gt)) =
        (.marked k p :: (classifyLoop (renderAll gt)).1,
         (classifyLoop (renderAll gt)).2) := by
      unfold classifyLoop
      rw [hstep, hfuel]
      rfl
    have hdrop : s.drop (renderAll (.marked k p :: gt)).length =
        s3.drop (renderAll gt).length := by
      have hs5 : s = (openTok k ++ (p ++ closeTok k)) ++ s3 := by
        rw [hs]
        simp [List.append_assoc]
      have hlen : (renderAll (.marked k p :: gt)).length =
          (openTok k ++ (p ++ closeTok k)).length + (renderAll gt).length := by
        rw [hchunk]
        simp only [List.length_append]
        omega
      rw [hs5, hlen, List.drop_append]
    have hih := chunkRun gt s3 fs2 r hcl3
    unfold ChunkConcl at hih
    unfold ChunkConcl
    rcases hih with ⟨hc1, hc2⟩ | ⟨g0, w2, hg, hw1, hw2, hc1, hc2⟩
    · left
      constructor
      · rw [hcalc, hc1]
      · rw [hdrop]
        exact hc2
    · right
      refine ⟨.marked k p :: g0, w2, by rw [hg]; simp, hw1, hw2, ?_, ?_⟩
      · rw [hcalc, hc1]
      · rw [hdrop]
        exact hc2
  | .plainText w0 :: gt, s, fs2, r, h =>
    chunkRunSegAux (.plainText w0) (fun k p he => nomatch he) gt s fs2 r h
      (fun g2 hlen s2 fs3 r2 hcl => chunkRun g2 s2 fs3 r2 hcl)
  | .jsonEnvelope w0 j :: gt, s, fs2, r, h =>
    chunkRunSegAux (.jsonEnvelope w0 j) (fun k p he => nomatch he) gt s fs2 r h
      (fun g2 hlen s2 fs3 r2 hcl => chunkRun g2 s2 fs3 r2 hcl)
termination_by g _ _ _ _ => g.length
decreasing_by
  all_goals simp only [List.length_cons]
  all_goals omega

/-- Threading the classifier over chunks cut at frame boundaries emits
exactly the frames of the whole stream, in order. -/
theorem goChunksRun : ∀ (groups : List (List LogicalFrame))
    (pending : List LogicalFrame) (s : Str),
    CL s (pending ++ groups.flatten) [] →
    (pending = [] ∨
      ∃ w, pending = [LogicalFrame.plainText w] ∧ w ≠ [] ∧ wsOnly w = true) →
    goChunks (renderAll pending) (groups.map renderAll) =
      (pending ++ groups.flatten).map parseFrame := by
  intro groups
  induction groups with
  | nil =>
    intro pending s h hpend
    rcases hpend with hp | ⟨w, hp, hwne, hws⟩
    · subst hp
      rfl
    · subst hp
      exact absurd (by simpa using h) (CL_not_single_ws s w hws)
  | cons g gs ih =>
    intro pending s h hpend
    have hjoin : pending ++ (g :: gs).flatten = (pending ++ g) ++ gs.flatten := by
      simp
    rw [hjoin] at h
    have hcc := chunkRun (pending ++ g) s gs.flatten [] h
    unfold ChunkConcl at hcc
    have hra : renderAll pending ++ renderAll g = renderAll (pending ++ g) :=
      (renderAll_append pending g).symm
    have hgo : goChunks (renderAll pending) (renderAll g :: gs.map renderAll) =
        (classifyLoop (renderAll pending ++ renderAll g)).1.map parseFrame ++
          goChunks (classifyLoop (renderAll pending ++ renderAll g)).2
            (gs.map renderAll) := rfl
    rcases hcc with ⟨hc1, hc2⟩ | ⟨g0, w, hg, hwne, hws, hc1, hc2⟩
    · have hih := ih [] (s.drop (renderAll (pending ++ g)).length)
        (by simpa using hc2) (Or.inl rfl)
      rw [show renderAll [] = [] from rfl] at hih
      show goChunks (renderAll pending) (renderAll g :: gs.map renderAll) = _
      rw [hgo, hra, hc1]
      show (pending ++ g).map parseFrame ++ goChunks [] (gs.map renderAll) = _
      rw [hih]
      simp [List.map_append]
    · have hih := ih [LogicalFrame.plainText w]
        (w ++ s.drop (renderAll (pending ++ g)).length)
        (by simpa using hc2) (Or.inr ⟨w, rfl, hwne, hws⟩)
      rw [show renderAll [LogicalFrame.plainText w] = w from by
        simp [renderAll, renderFrame]] at hih
      show goChunks (renderAll pending) (renderAll g :: gs.map renderAll) = _
      rw [hgo, hra, hc1]
      show g0.map parseFrame ++ goChunks w (gs.map renderAll) = _
      rw [hih]
      rw [show pending ++ (g :: gs).flatten = (pending ++ g) ++ gs.flatten from
        by simp, hg]
      simp [List.map_append]

/-- C1 (amended): fragmentation invariance at frame boundaries — when a
stream classifies completely (no leftover remainder) into a frame
sequence, then for every way of splitting that stream into chunks at
frame boundaries, running classify-then-parse over the chunk sequence
yields exactly the same ordered event sequence as running it over the
whole stream as a single chunk. -/
theorem classify_parse_fragmentation (whole : Str)
    (groups : List (List LogicalFrame))
    (h : classifyLoop whole = (groups.flatten, [])) :
    processChunks (groups.map renderAll) = processChunks [whole] := by
  have hcl : CL whole groups.flatten [] :=
    classifyLoopF_sound (whole.length + 1) whole groups.flatten []
      (by omega) h
  have h2 := goChunksRun groups [] whole (by simpa using hcl) (Or.inl rfl)
  rw [show renderAll [] = [] from rfl] at h2
  unfold processChunks
  have h3 : goChunks [] [whole] =
      (classifyLoop whole).1.map parseFrame ++
        goChunks (classifyLoop whole).2 [] := rfl
  rw [h3, h, h2]
  simp [goChunks]

/-- C1 witness: the fragmentation theorem applied at a concrete stream
split at a frame boundary (text frame, then a reasoning-replace marked
frame). -/
theorem classify_parse_fragmentation_witness :
    classifyLoop (("hi__REASONING_REPLACE__x__END_REASONING_REPLACE__").toList) =
      (([[LogicalFrame.plainText (("hi").toList)],
         [LogicalFrame.marked .reasoning (("x").toList)]] :
           List (List LogicalFrame)).flatten, []) ∧
    processChunks (([[LogicalFrame.plainText (("hi").toList)],
        [LogicalFrame.marked .reasoning (("x").toList)]] :
          List (List LogicalFrame)).map renderAll) =
      processChunks
        [("hi__REASONING_REPLACE__x__END_REASONING_REPLACE__").toList] :=
  ⟨rfl, classify_parse_fragmentation _ _ rfl⟩

/-- C1 counterexample: fragmentation invariance fails at arbitrary chunk
boundaries.  Splitting the done envelope mid-JSON turns a terminal `Done`
event into plain text, and splitting inside a plain-text run whose
suffix sniffs as JSON changes the concatenated text — in both cases the
event sequences differ even after merging consecutive text deltas and
dropping no-op events. -/
theorem fragmentation_counterexample :
    (("\x7b\"type\":").toList ++ ("\"done\"\x7d").toList = exDoneShort) ∧
    canonEvents (processChunks
        [("\x7b\"type\":").toList, ("\"done\"\x7d").toList]) ≠
      canonEvents (processChunks [exDoneShort]) ∧
    (("x").toList ++ ("\x7b\x7d").toList = ("x\x7b\x7d").toList) ∧
    canonEvents (processChunks [("x").toList, ("\x7b\x7d").toList]) ≠
      canonEvents (processChunks [("x\x7b\x7d").toList]) := by
  exact ⟨by decide, by decide, by decide, by decide⟩
